import Mathlib

/-!
Shallow embedding of the wine-recommendation core of the `liber_ai` backend:
the catalog filter and single-mode response assembly of
`app/services/ai_agent.py` (`process_b2c_message`, `_extract_recommended_wines`,
`_create_wine_journeys`), the output validator of
`app/services/fine_tuned_selector.py` (`_validate_and_enrich_result`), and the
proposal-confirmation route of `app/routes/chat.py` (`confirm_wines`).
Python strings are modelled as `List Char`, floats and SQL numerics as `Rat`,
integers as `Nat`/`Int` (`0` encodes a falsy/absent id), and dictionaries
coming from the untrusted model JSON as typed structures whose optional fields
mirror `dict.get` defaults.
-/

namespace LiberAI

/-- Python strings, modelled as character lists. -/
abbrev Str := List Char

/-- Converts a Lean string literal to the character-list model. -/
def strL (s : String) : Str := s.toList

/-- Models Python `str.lower()` (ASCII case folding suffices for the catalog). -/
def lowerStr (s : Str) : Str := s.map Char.toLower

/-- Whitespace test used by Python `str.strip()` and `str.split()`. -/
def isSpaceChar (c : Char) : Bool := c.isWhitespace

/-- Models Python `str.strip()`: drop whitespace from both ends. -/
def stripStr (s : Str) : Str :=
  ((s.dropWhile isSpaceChar).reverse.dropWhile isSpaceChar).reverse

/-- Helper for `findSub`: first index at or after `i` where `p` occurs in the remaining text. -/
def findSubGo (p : Str) : Str → Nat → Option Nat
  | [], i => if p.isPrefixOf ([] : Str) then some i else none
  | c :: t, i => if p.isPrefixOf (c :: t) then some i else findSubGo p t (i + 1)

/-- Models Python `s.find(p)` restricted to successful searches: the index of the
first occurrence of `p` in `s`, or `none` when absent. -/
def findSub (s p : Str) : Option Nat := findSubGo p s 0

/-- Models the Python membership test `p in s` on strings. -/
def containsSub (s p : Str) : Bool := (findSub s p).isSome

/-- Helper for `splitWs`, accumulating the current word in reverse. -/
def splitWsGo : Str → Str → List Str
  | [], acc => if acc = [] then [] else [acc.reverse]
  | c :: t, acc =>
    if isSpaceChar c then
      if acc = [] then splitWsGo t [] else acc.reverse :: splitWsGo t []
    else splitWsGo t (c :: acc)

/-- Models Python `str.split()` with no argument: split on runs of whitespace,
discarding empty fields. -/
def splitWs (s : Str) : List Str := splitWsGo s []

/-- Models the Python slice `s[a:b]` for `0 ≤ a ≤ b`. -/
def sliceStr (s : Str) (a b : Nat) : Str := (s.take b).drop a

/-- One row of the `products` table as surfaced by `Product.to_dict`:
`id`, `venue_id`, `name`, `type`, `price`, `margin`, `is_available`.
`id = 0` encodes a falsy/absent id.  `price` models the non-null
`Numeric(10,2)` column. -/
structure Wine where
  id : Nat
  venue_id : Nat
  name : Str
  wtype : String
  price : Rat
  margin : Option Rat
  is_available : Bool
deriving DecidableEq, Repr

/-- One wine entry of the untrusted model JSON (`result_json['wines']` or a
journey's `wines` array), after the `isinstance` type checks: `id = 0` and
`name = []` encode missing/falsy values, `rank = none` encodes a missing rank. -/
structure MWine where
  id : Nat
  name : Str
  rank : Option Int
  best : Bool
  reason : Str
deriving DecidableEq, Repr

/-- One journey object of the untrusted model JSON, after the `isinstance`
checks; `none` fields encode missing keys resolved by `dict.get` defaults. -/
structure MJourney where
  jid : Option Int
  jname : Option Str
  jreason : Option Str
  jwines : List MWine
deriving DecidableEq, Repr

/-- The parsed model JSON handed to `_validate_and_enrich_result`. -/
structure MResult where
  wines : List MWine
  journeys : List MJourney
deriving DecidableEq, Repr

/-- A validated, enriched single-mode wine (the fields of the enriched dict
that the claims concern: identity, name, type, price, reason, rank, best). -/
structure RankedWine where
  id : Nat
  name : Str
  wtype : String
  price : Rat
  reason : Str
  rank : Int
  best : Bool
deriving DecidableEq, Repr

/-- A validated journey wine (enriched dict without rank/best/reason). -/
structure JWine where
  id : Nat
  name : Str
  wtype : String
  price : Rat
deriving DecidableEq, Repr

/-- A validated journey. -/
structure VJourney where
  jid : Int
  jname : Str
  jreason : Str
  wines : List JWine
deriving DecidableEq, Repr

/-- The validator's result dict `{'wines': ..., 'journeys': ...}`. -/
structure VResult where
  wines : List RankedWine
  journeys : List VJourney
deriving DecidableEq, Repr

/-- Models the dict `wine_by_id = {w['id']: w for w in all_wines if w.get('id')}`
looked up at key `i`: the last wine with truthy id `i` wins, as later dict
insertions overwrite earlier ones. -/
def lookupById (allw : List Wine) (i : Nat) : Option Wine :=
  allw.foldl (fun acc w => if w.id ≠ 0 ∧ w.id = i then some w else acc) none

/-- Normalisation `w.get('name','').lower().strip()` applied to dict keys and
to queried names. -/
def normName (s : Str) : Str := stripStr (lowerStr s)

/-- Models the dict `wine_by_name = {w['name'].lower().strip(): w for w in all_wines
if w.get('name')}` looked up at an already-normalised key. -/
def lookupByName (allw : List Wine) (key : Str) : Option Wine :=
  allw.foldl (fun acc w => if w.name ≠ [] ∧ normName w.name = key then some w else acc) none

/-- The resolution step of `_validate_and_enrich_result`: find the catalog wine
by truthy id first, else by case-insensitive stripped name, else drop. -/
def resolveWine (allw : List Wine) (mid : Nat) (mname : Str) : Option Wine :=
  if mid ≠ 0 ∧ (lookupById allw mid).isSome then lookupById allw mid
  else if mname ≠ [] then lookupByName allw (normName mname)
  else none

/-- Helper for `enrichSingle`; `n` counts the wines already appended, so the
missing-rank default `len(validated['wines']) + 1` is `n + 1`. -/
def enrichSingleGo (allw : List Wine) : List MWine → Nat → List RankedWine
  | [], _ => []
  | it :: rest, n =>
    match resolveWine allw it.id it.name with
    | none => enrichSingleGo allw rest n
    | some w =>
      { id := w.id, name := w.name, wtype := w.wtype, price := w.price,
        reason := it.reason,
        rank := match it.rank with | some r => r | none => (n : Int) + 1,
        best := it.best } :: enrichSingleGo allw rest (n + 1)

/-- The single-mode resolution/enrichment loop over `result_json['wines']`. -/
def enrichSingle (allw : List Wine) (items : List MWine) : List RankedWine :=
  enrichSingleGo allw items 0

/-- Models `validated['wines'].sort(key=lambda w: w.get('rank', 999))`: a
stable sort by rank (insertion sort is stable, so it computes the same list as
Python's stable `list.sort`; every enriched wine carries a rank). -/
def sortByRank (ws : List RankedWine) : List RankedWine :=
  ws.insertionSort (fun a b => a.rank ≤ b.rank)

/-- Helper for `dedupById` carrying the `seen_ids` set. -/
def dedupByIdGo : List RankedWine → List Nat → List RankedWine
  | [], _ => []
  | w :: t, seen =>
    if w.id ≠ 0 ∧ ¬ seen.contains w.id then w :: dedupByIdGo t (w.id :: seen)
    else dedupByIdGo t seen

/-- The duplicate-removal loop: keep the first (lowest-rank) occurrence of each
truthy id, drop wines with falsy ids. -/
def dedupById (ws : List RankedWine) : List RankedWine := dedupByIdGo ws []

/-- Models the loop `for w in validated['wines']: w['best'] = False`. -/
def clearBest (ws : List RankedWine) : List RankedWine :=
  ws.map (fun w => { w with best := false })

/-- Sets `best := true` on the first wine satisfying `p` (the object Python
mutates after clearing all the flags). -/
def markBestFirst (p : RankedWine → Bool) : List RankedWine → List RankedWine
  | [] => []
  | w :: t => if p w then { w with best := true } :: t else w :: markBestFirst p t

/-- Models `validated['wines'][0]['best'] = True` guarded by non-emptiness. -/
def markBestHead : List RankedWine → List RankedWine
  | [] => []
  | w :: t => { w with best := true } :: t

/-- One iteration of the featured-wine loop (single mode only): if the featured
wine is in the ranking at rank 1 without the flag, clear every flag and set it
on that wine. -/
def applyFeaturedStep (cur : List RankedWine) (fid : Nat) : List RankedWine :=
  match cur.find? (fun w => w.id = fid) with
  | some fw =>
    if fw.rank = 1 ∧ ¬ fw.best then markBestFirst (fun w => w.id = fid) (clearBest cur)
    else cur
  | none => cur

/-- The featured-wine prioritisation loop of `_validate_and_enrich_result`. -/
def applyFeatured (featured : List Nat) (ws : List RankedWine) : List RankedWine :=
  featured.foldl applyFeaturedStep ws

/-- The best-flag repair block (`# Ensure exactly one wine has best=true`):
if a rank-1 wine exists and lacks the flag, move the flag onto it; with no
rank-1 wine, mark the head when no flag is set, and when several flags are set
keep only the first featured flagged wine, else only the head's flag. -/
def repairBest (featured : List Nat) (ws : List RankedWine) : List RankedWine :=
  let wines_with_best := ws.filter (fun w => w.best)
  match ws.find? (fun w => w.rank = 1) with
  | some r1 =>
    if ¬ r1.best then markBestFirst (fun w => w.rank = 1) (clearBest ws) else ws
  | none =>
    if wines_with_best.length = 0 then markBestHead ws
    else if wines_with_best.length > 1 then
      let featured_with_best := ws.filter (fun w => w.best ∧ featured.contains w.id)
      match featured_with_best.head? with
      | some fb => ws.map (fun w => if w.best ∧ w.id ≠ fb.id then { w with best := false } else w)
      | none =>
        match ws with
        | [] => []
        | w :: t => w :: t.map (fun x => if x.best then { x with best := false } else x)
    else ws

/-- The journey-wine resolution loop: resolve each entry by id/name and enrich
from the catalog, silently dropping unresolved entries. -/
def enrichJourneyWines (allw : List Wine) (items : List MWine) : List JWine :=
  items.filterMap (fun it =>
    (resolveWine allw it.id it.name).map
      (fun w => { id := w.id, name := w.name, wtype := w.wtype, price := w.price }))

/-- The journey validation loop: keep a journey only when it resolved at least
one wine and (when a target `bottles ≠ 0` is set) exactly `bottles` wines;
missing journey fields take the `dict.get` defaults. -/
def validateJourneys (allw : List Wine) (bottles : Nat) (js : List MJourney) : List VJourney :=
  js.foldl (fun acc j =>
    let jw := enrichJourneyWines allw j.jwines
    if jw ≠ [] then
      if bottles ≠ 0 ∧ jw.length ≠ bottles then acc
      else acc ++ [{ jid := j.jid.getD ((acc.length : Int) + 1),
                     jname := j.jname.getD (strL "Percorso di Degustazione"),
                     jreason := j.jreason.getD [],
                     wines := jw }]
    else acc) []

/-- Models `sorted(all_wines, key=lambda w: float(w.get('price', 0)))`: a
stable sort by price (insertion sort computes the same list as Python's stable
`sorted`). -/
def sortByPrice (ws : List Wine) : List Wine :=
  ws.insertionSort (fun a b => a.price ≤ b.price)

/-- The enumeration of the fallback ranking: rank `idx + 1`, `best` exactly at
index `0`, fixed reason text. -/
def fallbackEnum : Nat → List Wine → List RankedWine
  | _, [] => []
  | i, w :: t =>
    { id := w.id, name := w.name, wtype := w.wtype, price := w.price,
      reason := strL "Vino disponibile nella carta.",
      rank := (i : Int) + 1, best := i == 0 } :: fallbackEnum (i + 1) t

/-- The deterministic fallback ranking: all catalog wines ordered by ascending
price, ranks `1..N`, the cheapest marked best. -/
def fallbackRanking (allw : List Wine) : List RankedWine :=
  fallbackEnum 0 (sortByPrice allw)

/-- The whole of `_validate_and_enrich_result`: journey mode validates and
truncates journeys then rejects batches with fewer than two of them; single
mode resolves, sorts, deduplicates, applies the featured and best-flag repairs,
and falls back to the deterministic price ranking when nothing usable remains
and the catalog is non-empty.  `bottles = 0` encodes a falsy
`gathered_info.get('bottles_count')`. -/
def validate_and_enrich_result (result : MResult) (allw : List Wine)
    (journey_preference : String) (bottles : Nat) (featured : List Nat) : VResult :=
  if journey_preference = "journey" then
    let js0 := validateJourneys allw bottles result.journeys
    let js := if js0.length > 3 then js0.take 3 else js0
    if js.length < 2 then { wines := [], journeys := [] }
    else { wines := [], journeys := js }
  else
    let resolved := enrichSingle allw result.wines
    let deduped := dedupById (sortByRank resolved)
    let feat :=
      if featured ≠ [] ∧ journey_preference = "single" then applyFeatured featured deduped
      else deduped
    let repaired := repairBest featured feat
    if repaired.length = 0 then
      if allw ≠ [] then { wines := fallbackRanking allw, journeys := [] }
      else { wines := [], journeys := [] }
    else { wines := repaired, journeys := [] }

/-- The single-mode response field `all_rankings` assembled by
`process_b2c_message`: the full validated ranking. -/
def allRankings (out : VResult) : List RankedWine := out.wines

/-- The single-mode response field `wines`: the top-3 display slice. -/
def winesForDisplay (out : VResult) : List RankedWine := out.wines.take 3

/-- The `budget` preference handed to the catalog filter of
`process_b2c_message`: absent/falsy, a numeric value, or a categorical
bucket string. -/
inductive BudgetPref where
  | bnone : BudgetPref
  | bnum (b : Rat) : BudgetPref
  | bstr (s : String) : BudgetPref
deriving DecidableEq, Repr

/-- The computation of `budget_max` in `process_b2c_message`: falsy or
`'nolimit'` preferences give no ceiling, numeric preferences give themselves
(`0` is falsy and gives none), `'base'`/`'low'` give 20, `'spinto'`/`'medium'`
give 40, any other string gives none.  The final `if budget_max:` truthiness
check is folded in (all produced values are non-zero). -/
def budgetMax : BudgetPref → Option Rat
  | .bnone => none
  | .bnum b => if b = 0 then none else some b
  | .bstr s =>
    if s = "" ∨ s = "nolimit" then none
    else if s = "base" ∨ s = "low" then some 20
    else if s = "spinto" ∨ s = "medium" then some 40
    else none

/-- The catalog filter query of `process_b2c_message`: venue and availability
always apply; the type filter applies only for a truthy preference other than
`'any'`; the price filter `price ≤ budget_max × 1.15` applies only when a
numeric ceiling is known.  The query's `order_by(type, name)` is presentational
and not modelled (all claims are order-insensitive at this stage). -/
def filterCatalog (products : List Wine) (venueId : Nat)
    (wine_type_pref : String) (bp : BudgetPref) : List Wine :=
  let q1 := products.filter (fun p => p.venue_id = venueId ∧ p.is_available)
  let q2 :=
    if wine_type_pref ≠ "" ∧ wine_type_pref ≠ "any" then
      q1.filter (fun p => p.wtype = wine_type_pref)
    else q1
  match budgetMax bp with
  | some m => q2.filter (fun p => p.price ≤ m * (115 / 100))
  | none => q2

/-- Regex word characters (`\w`) as used by the `\b` boundaries of the mention
extractor (ASCII model: alphanumeric or underscore). -/
def isWordChar (c : Char) : Bool := c.isAlphanum || c = '_'

/-- Word-character test at index `i` of `s` (`false` out of range). -/
def wcAt (s : Str) (i : Nat) : Bool :=
  match s.drop i with
  | [] => false
  | c :: _ => isWordChar c

/-- Models a regex `\b` assertion at position `i` of `s`: exactly one side is a
word character (string edges count as non-word). -/
def wordBoundary (s : Str) (i : Nat) : Bool :=
  (if i = 0 then false else wcAt s (i - 1)) != wcAt s i

/-- A match of the escaped-literal pattern `\b p \b` starting at index `i`. -/
def wbMatchAt (s p : Str) (i : Nat) : Bool :=
  p.isPrefixOf (s.drop i) && wordBoundary s i && wordBoundary s (i + p.length)

/-- Leftmost `\b p \b` match at or after index `i`. -/
def nextWbMatch (s p : Str) (i : Nat) : Option Nat :=
  ((List.range (s.length + 1)).filter (fun j => i ≤ j ∧ wbMatchAt s p j = true)).head?

/-- Fuelled loop for `finditerWb`; non-empty patterns advance past each match. -/
def finditerWbGo (s p : Str) : Nat → Nat → List Nat
  | 0, _ => []
  | fuel + 1, i =>
    match nextWbMatch s p i with
    | none => []
    | some j => j :: finditerWbGo s p fuel (j + p.length)

/-- Models `re.finditer(r'\b' + re.escape(p) + r'\b', s)` start positions:
non-overlapping matches scanned left to right. -/
def finditerWb (s p : Str) : List Nat := finditerWbGo s p (s.length + 1) 0

/-- The denomination/year tokens excluded from significant words by the
mention extractor. -/
def stopWords : List Str :=
  [strL "d.o.c", strL "doc", strL "igp", strL "dop", strL "del", strL "di",
   strL "la", strL "le", strL "il", strL "2014", strL "2015", strL "2016",
   strL "2017", strL "2018", strL "2019", strL "2020", strL "2021",
   strL "2022", strL "2023", strL "2024"]

/-- Strategy 1 of the per-wine scoring loop: an exact case-insensitive
substring match of the full stripped name scores 100 at its first position
(the `elif` re-testing the same condition for 95 is unreachable and omitted);
otherwise the state stays at `(-1, 0)`. -/
def strategy1Score (response_lower wine_name_lower : Str) : Int × Rat :=
  match findSub response_lower wine_name_lower with
  | some i => ((i : Int), 100)
  | none => (-1, 0)

/-- Strategy 2 of the scoring loop (runs when the score so far is below 50):
collect significant words (longer than 3 characters, not
denomination/year tokens), find their whole-word occurrences, set the position
to the leftmost occurrence and score the fraction of matched words scaled to a
maximum of 50. -/
def strategy2Score (response_lower wine_name : Str) (s1 : Int × Rat) : Int × Rat :=
  if s1.2 < 50 then
    let name_parts := ((splitWs wine_name).filter
      (fun p => (stripStr p).length > 3 ∧ ¬ stopWords.contains (lowerStr p))).map stripStr
    let matching_parts := name_parts.flatMap (fun part => finditerWb response_lower (lowerStr part))
    match matching_parts.min? with
    | some m =>
      if 0 < name_parts.length then
        let matched := (((name_parts.filter (fun p => matching_parts.any
            (fun pos => containsSub (sliceStr response_lower (pos - 10) (pos + p.length + 10))
              (lowerStr p)))).map lowerStr).dedup).length
        ((m : Int), (matched : Rat) / (name_parts.length : Rat) * 50)
      else ((m : Int), 30)
    | none => s1
  else s1

/-- Strategy 3 of the scoring loop (runs when the score so far is below 20):
a first word longer than 4 characters found within 30 characters of a price
sign or a wine keyword scores 20 at that word's position. -/
def strategy3Score (response_lower wine_name : Str) (s2 : Int × Rat) : Int × Rat :=
  if s2.2 < 20 then
    match (splitWs wine_name).find? (fun p => p.length > 4) with
    | some fsw =>
      match findSub response_lower (lowerStr fsw) with
      | some wp =>
        let context := sliceStr response_lower (wp - 30) (wp + fsw.length + 30)
        if containsSub context (strL "€") ∨ containsSub context (strL "vino")
            ∨ containsSub context (strL "etichetta") ∨ containsSub context (strL "bottiglia")
        then ((wp : Int), 20)
        else s2
      | none => s2
    | none => s2
  else s2

/-- The per-wine scoring loop body of `_extract_recommended_wines`, returning
the final `(position, match_score)` pair for a wine whose stripped name is
non-empty: the three matching strategies applied in order, each gated on the
score accumulated so far. -/
def scoreWine (response_lower : Str) (wine : Wine) : Int × Rat :=
  let wine_name := stripStr wine.name
  strategy3Score response_lower wine_name
    (strategy2Score response_lower wine_name
      (strategy1Score response_lower (lowerStr wine_name)))

/-- One scored wine mention (`{'wine': ..., 'position': ..., 'score': ...}`). -/
structure MatchEntry where
  wine : Wine
  position : Int
  score : Rat
deriving DecidableEq, Repr

/-- The accepted mentions: wines with a non-empty stripped name whose final
position is non-negative and whose score is strictly above 80, in catalog
order. -/
def wineMatches (response_lower : Str) (catalog : List Wine) : List MatchEntry :=
  catalog.filterMap (fun w =>
    if stripStr w.name = [] then none
    else
      let ps := scoreWine response_lower w
      if ps.1 ≥ 0 ∧ ps.2 > 80 then some ⟨w, ps.1, ps.2⟩ else none)

/-- The sort key `(position, -score)` of the extractor as a lexicographic
order relation. -/
def matchLe (a b : MatchEntry) : Prop :=
  a.position < b.position ∨ (a.position = b.position ∧ b.score ≤ a.score)

instance : DecidableRel matchLe := fun a b => by unfold matchLe; infer_instance

/-- Accepted mentions sorted by first position, ties by descending score
(a stable sort computing the same list as Python's stable `list.sort`). -/
def sortedMatches (response_lower : Str) (catalog : List Wine) : List MatchEntry :=
  (wineMatches response_lower catalog).insertionSort matchLe

/-- Helper for the extractor's duplicate removal, carrying `seen_ids`. -/
def dedupWinesGo : List Wine → List Nat → List Wine
  | [], _ => []
  | w :: t, seen =>
    if w.id ≠ 0 ∧ ¬ seen.contains w.id then w :: dedupWinesGo t (w.id :: seen)
    else dedupWinesGo t seen

/-- The whole of `_extract_recommended_wines`: score every catalog wine against
the response text, keep scores above 80, order by appearance (ties by
descending score), and remove duplicate ids keeping the first occurrence. -/
def extract_recommended_wines (ai_response : Str) (available_wines : List Wine) : List Wine :=
  if available_wines = [] then []
  else dedupWinesGo ((sortedMatches (lowerStr ai_response) available_wines).map (·.wine)) []

/-- The global pseudo-random generator of Python's `random` module, abstracted:
`seed` maps a seed value to a generator state, `shuffle` permutes a list under
a state and returns the advanced state. -/
structure PRNG where
  seed : Nat → Nat
  shuffle : Nat → List Wine → List Wine × Nat

/-- One journey built by `_create_wine_journeys`. -/
structure Journey where
  id : Nat
  wines : List Wine
  description : String
deriving DecidableEq, Repr

/-- Models `get_next_unused_wine`: the first wine of the shuffled copy with a
truthy id not yet used. -/
def getNextUnused (ws : List Wine) (used : List Nat) : Option Wine :=
  ws.find? (fun w => w.id ≠ 0 ∧ ¬ used.contains w.id)

/-- Up to `k` successive `get_next_unused_wine` draws, returning the wines
drawn and the final used-id set (drawn ids are consumed even when the journey
they were drawn for is later discarded). -/
def takeUnused (ws : List Wine) : Nat → List Nat → List Wine × List Nat
  | 0, used => ([], used)
  | k + 1, used =>
    match getNextUnused ws used with
    | none => ([], used)
    | some w =>
      let r := takeUnused ws k (w.id :: used)
      (w :: r.1, r.2)

/-- The whole of `_create_wine_journeys`: seed the generator with
`bottles_count * 42` (discarding the incoming generator state `g`), shuffle a
copy of the list, build one or two journeys according to the bottle count, and
fall back to a single journey of the first `bottles_count` original wines when
no journey was built. -/
def create_wine_journeys (R : PRNG) (_g : Nat) (wines : List Wine)
    (bottles_count : Nat) : List Journey :=
  if wines = [] then []
  else
    let s0 := R.seed (bottles_count * 42)
    let wines_copy := (R.shuffle s0 wines).1
    let journeys : List Journey :=
      if bottles_count = 2 then
        let t1 := takeUnused wines_copy 2 []
        let j1 : List Journey :=
          if t1.1.length = 2 then
            [⟨1, t1.1, "Percorso di degustazione dal più delicato al più strutturato"⟩]
          else []
        let t2 := takeUnused wines_copy 2 t1.2
        if t2.1.length = 2 ∧ wines.length ≥ 4 then
          j1 ++ [⟨2, t2.1, "Percorso alternativo con caratteri diversi"⟩]
        else j1
      else if bottles_count = 3 then
        let t1 := takeUnused wines_copy 3 []
        if t1.1.length = 3 then
          let base := [(⟨1, t1.1, "Percorso completo di tre vini che si evolvono con le portate"⟩ : Journey)]
          if wines.length ≥ 6 then
            let t2 := takeUnused wines_copy 3 t1.2
            if t2.1.length = 3 then
              base ++ [⟨2, t2.1, "Percorso alternativo con focus su sapori diversi"⟩]
            else base
          else base
        else []
      else if bottles_count ≥ 4 then
        let t1 := takeUnused wines_copy bottles_count []
        if t1.1.length ≥ 2 then
          let base := [(⟨1, t1.1, "Percorso classico dal più delicato al più corposo"⟩ : Journey)]
          if wines.length ≥ bottles_count * 2 then
            let t2 := takeUnused wines_copy bottles_count t1.2
            if t2.1.length ≥ 2 then
              base ++ [⟨2, t2.1, "Percorso alternativo con caratteri diversi"⟩]
            else base
          else base
        else []
      else []
    if journeys = [] ∧ wines ≠ [] then
      [⟨1, if wines.length ≥ bottles_count then wines.take bottles_count else wines,
        "Percorso di degustazione selezionato"⟩]
    else journeys

/-- One row of the `wine_proposals` table; `pid` is the primary key,
timestamps are abstract ticks. -/
structure Proposal where
  pid : Nat
  session_id : Nat
  product_id : Nat
  proposal_rank : Int
  price : Rat
  margin : Option Rat
  mode : String
  is_selected : Bool
  selected_at : Option Nat
  created_at : Nat
deriving DecidableEq, Repr

/-- The slice of the database `confirm_wines` touches: the proposal log and
the product table. -/
structure Store where
  proposals : List Proposal
  products : List Wine
deriving DecidableEq, Repr

/-- Models `WineProposal.query.filter_by(session_id, product_id)
.order_by(created_at.desc()).first()`: a matching proposal with maximal
`created_at` (first such in row order when timestamps tie). -/
def mostRecentProposal (ps : List Proposal) (sid wid : Nat) : Option Proposal :=
  (ps.filter (fun p => p.session_id = sid ∧ p.product_id = wid)).foldl
    (fun acc p =>
      match acc with
      | none => some p
      | some q => if q.created_at < p.created_at then some p else acc) none

/-- Models `WineProposal.mark_as_selected`. -/
def mark_as_selected (p : Proposal) (now : Nat) : Proposal :=
  { p with is_selected := true, selected_at := some now }

/-- One iteration of the `confirm_wines` loop for a single confirmed id: mark
the most recent matching proposal as selected, or — when the item was never
tracked and the product exists — insert one new proposal directly in the
selected state (rank 1, price and margin copied from the product, mode
`'single'`). -/
def confirmWine (st : Store) (sid wid now newPid : Nat) : Store :=
  match mostRecentProposal st.proposals sid wid with
  | some p =>
    { st with proposals :=
        st.proposals.map (fun q => if q.pid = p.pid then mark_as_selected q now else q) }
  | none =>
    match st.products.find? (fun w => w.id = wid) with
    | some prod =>
      { st with proposals := st.proposals ++
          [{ pid := newPid, session_id := sid, product_id := wid, proposal_rank := 1,
             price := prod.price, margin := prod.margin, mode := "single",
             is_selected := true, selected_at := some now, created_at := now }] }
    | none => st

/-! Concrete catalogs, model outputs and stores used by counterexamples and
witnesses. -/

/-- Example catalog wine priced €18 (the spec's end-to-end wine A). -/
def exA : Wine :=
  { id := 1, venue_id := 9, name := strL "Barolo Riserva", wtype := "red",
    price := 18, margin := none, is_available := true }

/-- Example catalog wine priced €25 (the spec's end-to-end wine B). -/
def exB : Wine :=
  { id := 2, venue_id := 9, name := strL "Chianti Classico", wtype := "red",
    price := 25, margin := none, is_available := true }

/-- Example catalog wine priced €30 (the spec's end-to-end wine C). -/
def exC : Wine :=
  { id := 3, venue_id := 9, name := strL "Vermentino", wtype := "white",
    price := 30, margin := none, is_available := true }

/-- Further example wines used to populate eight-wine catalogs. -/
def exD : Wine :=
  { id := 4, venue_id := 9, name := strL "Quarto", wtype := "red",
    price := 10, margin := none, is_available := true }

/-- Example wine with id 5. -/
def exE : Wine :=
  { id := 5, venue_id := 9, name := strL "Quinto", wtype := "red",
    price := 11, margin := none, is_available := true }

/-- Example wine with id 6. -/
def exF : Wine :=
  { id := 6, venue_id := 9, name := strL "Sesto", wtype := "red",
    price := 12, margin := none, is_available := true }

/-- Example wine with id 7. -/
def exG : Wine :=
  { id := 7, venue_id := 9, name := strL "Settimo", wtype := "red",
    price := 13, margin := none, is_available := true }

/-- Example wine with id 8. -/
def exH : Wine :=
  { id := 8, venue_id := 9, name := strL "Ottavo", wtype := "red",
    price := 14, margin := none, is_available := true }

/-- An eight-wine catalog with distinct truthy ids. -/
def exCat8 : List Wine := [exA, exB, exC, exD, exE, exF, exG, exH]

/-- A model wine entry referring to catalog id `i` with a declared rank and
best flag. -/
def exMWine (i : Nat) (r : Int) (b : Bool) : MWine :=
  { id := i, name := [], rank := some r, best := b, reason := [] }

/-- Model output declaring both wines `best=true`, rank 1 and rank 2: the
failing input of the best-flag repair. -/
def exTwoBest : MResult :=
  { wines := [exMWine 1 1 true, exMWine 2 2 true], journeys := [] }

/-- A model journey containing catalog ids `a` and `b`. -/
def exMJourney (a b : Nat) : MJourney :=
  { jid := none, jname := none, jreason := none,
    jwines := [{ id := a, name := [], rank := none, best := false, reason := [] },
               { id := b, name := [], rank := none, best := false, reason := [] }] }

/-- Model output with four valid two-wine journeys over `exCat8`. -/
def exFourJourneys : MResult :=
  { wines := [], journeys := [exMJourney 1 2, exMJourney 3 4, exMJourney 5 6, exMJourney 7 8] }

/-- Model output ranking only id 1, with declared rank 3. -/
def exPartial : MResult :=
  { wines := [exMWine 1 3 false], journeys := [] }

/-- An older unselected proposal for product 7 in session 1. -/
def exProp1 : Proposal :=
  { pid := 1, session_id := 1, product_id := 7, proposal_rank := 1, price := 13,
    margin := none, mode := "single", is_selected := false, selected_at := none,
    created_at := 10 }

/-- A newer proposal for product 7 in session 1 that is already selected. -/
def exProp2 : Proposal :=
  { pid := 2, session_id := 1, product_id := 7, proposal_rank := 2, price := 13,
    margin := none, mode := "single", is_selected := true, selected_at := some 15,
    created_at := 20 }

/-- A store holding the two proposals above and the matching product. -/
def exStore : Store := { proposals := [exProp1, exProp2], products := [exG] }

/-- A store with no proposals and one product. -/
def exEmptyStore : Store := { proposals := [], products := [exG] }

/-- A deterministic stand-in for the seeded generator: shuffling reverses the
list (a permutation, as `random.shuffle` is). -/
def exPRNG : PRNG := { seed := fun s => s, shuffle := fun _ l => (l.reverse, 0) }

/-- Projection of a validated wine onto everything except the `best` flag,
used to state that the flag-repair passes touch only `best`. -/
def stripBest (r : RankedWine) : Nat × Str × String × Rat × Str × Int :=
  (r.id, r.name, r.wtype, r.price, r.reason, r.rank)

/-- The wine identified by `(i, n, p)` is a faithful copy of some catalog
entry's id, name and price. -/
def fromCatalog (allw : List Wine) (i : Nat) (n : Str) (p : Rat) : Prop :=
  ∃ c ∈ allw, i = c.id ∧ n = c.name ∧ p = c.price

/-! Theorems. -/

/-- Every journey accepted by the journey-validation loop has exactly the
target number of wines, provided a target is set. -/
theorem validateJourneys_wines_length (allw : List Wine) (bottles : Nat)
    (hb : bottles ≠ 0) (js : List MJourney) :
    ∀ j ∈ validateJourneys allw bottles js, j.wines.length = bottles := by
  suffices h : ∀ (js : List MJourney) (acc : List VJourney),
      (∀ j ∈ acc, j.wines.length = bottles) →
      ∀ j ∈ js.foldl (fun acc j =>
        let jw := enrichJourneyWines allw j.jwines
        if jw ≠ [] then
          if bottles ≠ 0 ∧ jw.length ≠ bottles then acc
          else acc ++ [{ jid := j.jid.getD ((acc.length : Int) + 1),
                         jname := j.jname.getD (strL "Percorso di Degustazione"),
                         jreason := j.jreason.getD [],
                         wines := jw }]
        else acc) acc, j.wines.length = bottles by
    intro j hj
    exact h js [] (by simp) j hj
  intro js
  induction js with
  | nil => intro acc hacc j hj; exact hacc j hj
  | cons x t ih =>
    intro acc hacc j hj
    simp only [List.foldl_cons] at hj
    refine ih _ ?_ j hj
    intro j' hj'
    by_cases h1 : enrichJourneyWines allw x.jwines ≠ []
    · simp only [if_pos h1] at hj'
      by_cases h2 : bottles ≠ 0 ∧ (enrichJourneyWines allw x.jwines).length ≠ bottles
      · rw [if_pos h2] at hj'
        exact hacc j' hj'
      · rw [if_neg h2] at hj'
        rcases List.mem_append.mp hj' with h | h
        · exact hacc j' h
        · have hlen : (enrichJourneyWines allw x.jwines).length = bottles := by
            rcases not_and_or.mp h2 with h' | h'
            · exact absurd hb h'
            · exact not_not.mp h'
          simp only [List.mem_singleton] at h
          subst h
          exact hlen
    · simp only [if_neg h1] at hj'
      exact hacc j' hj'

/-- The journey branch of the validator, unfolded. -/
theorem validate_journey_branch (result : MResult) (allw : List Wine)
    (bottles : Nat) (featured : List Nat) :
    validate_and_enrich_result result allw "journey" bottles featured =
      (let js0 := validateJourneys allw bottles result.journeys
       let js := if js0.length > 3 then js0.take 3 else js0
       if js.length < 2 then { wines := [], journeys := [] }
       else { wines := [], journeys := js }) := by
  unfold validate_and_enrich_result
  simp

/-- C3, amended: every journey in the validated batch has exactly the target
wine count, the validated batch has 0, 2 or 3 journeys, a batch with fewer
than two accepted journeys is rejected as an empty result, and a batch with
more than three accepted journeys is truncated to the first three (rather than
rejected, which is what the original claim asserted). -/
theorem c3_journey_validation_amended (result : MResult) (allw : List Wine)
    (bottles : Nat) (featured : List Nat) (hb : bottles ≠ 0) :
    (∀ j ∈ (validate_and_enrich_result result allw "journey" bottles featured).journeys,
      j.wines.length = bottles) ∧
    ((validate_and_enrich_result result allw "journey" bottles featured).journeys.length = 0 ∨
     (validate_and_enrich_result result allw "journey" bottles featured).journeys.length = 2 ∨
     (validate_and_enrich_result result allw "journey" bottles featured).journeys.length = 3) ∧
    ((validateJourneys allw bottles result.journeys).length < 2 →
      validate_and_enrich_result result allw "journey" bottles featured
        = { wines := [], journeys := [] }) ∧
    (3 < (validateJourneys allw bottles result.journeys).length →
      (validate_and_enrich_result result allw "journey" bottles featured).journeys
        = (validateJourneys allw bottles result.journeys).take 3) := by
  rw [validate_journey_branch]
  simp only []
  set js0 := validateJourneys allw bottles result.journeys with hjs0
  have hmem : ∀ j ∈ js0, j.wines.length = bottles :=
    validateJourneys_wines_length allw bottles hb result.journeys
  by_cases hgt : js0.length > 3
  · have hlen3 : (js0.take 3).length = 3 := by
      rw [List.length_take]
      omega
    rw [if_pos hgt, if_neg (by omega)]
    dsimp only
    refine ⟨?_, ?_, ?_, ?_⟩
    · intro j hj
      exact hmem j (List.mem_of_mem_take hj)
    · omega
    · intro h
      omega
    · intro _
      rfl
  · rw [if_neg hgt]
    by_cases hlt : js0.length < 2
    · rw [if_pos hlt]
      exact ⟨by simp, by simp, fun _ => rfl, fun h => by omega⟩
    · rw [if_neg hlt]
      dsimp only
      refine ⟨hmem, by omega, fun h => absurd h hlt, fun h => by omega⟩

/-- Witness for C3: concrete application with four accepted two-wine journeys
and target 2; every journey in the (truncated) output carries exactly 2 wines. -/
theorem c3_journey_validation_amended_witness :
    (2 : Nat) ≠ 0 ∧
    ∀ j ∈ (validate_and_enrich_result exFourJourneys exCat8 "journey" 2 []).journeys,
      j.wines.length = 2 :=
  ⟨by decide, (c3_journey_validation_amended exFourJourneys exCat8 2 [] (by decide)).1⟩

/-- The single-mode branch of the validator, unfolded. -/
theorem validate_single_branch (result : MResult) (allw : List Wine) (jp : String)
    (bottles : Nat) (featured : List Nat) (hjp : jp ≠ "journey") :
    validate_and_enrich_result result allw jp bottles featured =
      (let resolved := enrichSingle allw result.wines
       let deduped := dedupById (sortByRank resolved)
       let feat :=
         if featured ≠ [] ∧ jp = "single" then applyFeatured featured deduped else deduped
       let repaired := repairBest featured feat
       if repaired.length = 0 then
         if allw ≠ [] then { wines := fallbackRanking allw, journeys := [] }
         else { wines := [], journeys := [] }
       else { wines := repaired, journeys := [] }) := by
  unfold validate_and_enrich_result
  rw [if_neg hjp]

/-- The featured-wine loop does nothing on an empty ranking. -/
theorem applyFeatured_nil (featured : List Nat) : applyFeatured featured [] = [] := by
  induction featured with
  | nil => rfl
  | cons f t ih =>
    simpa [applyFeatured, applyFeaturedStep, List.find?] using ih

/-- The length of the fallback enumeration. -/
theorem fallbackEnum_length (l : List Wine) : ∀ i, (fallbackEnum i l).length = l.length := by
  induction l with
  | nil => intro i; rfl
  | cons w t ih => intro i; simp [fallbackEnum, ih]

/-- The fallback enumeration copies the wine ids positionally. -/
theorem fallbackEnum_map_id (l : List Wine) :
    ∀ i, (fallbackEnum i l).map (fun r => r.id) = l.map (fun w => w.id) := by
  induction l with
  | nil => intro i; rfl
  | cons w t ih => intro i; simp [fallbackEnum, ih]

/-- The fallback enumeration copies the wine prices positionally. -/
theorem fallbackEnum_map_price (l : List Wine) :
    ∀ i, (fallbackEnum i l).map (fun r => r.price) = l.map (fun w => w.price) := by
  induction l with
  | nil => intro i; rfl
  | cons w t ih => intro i; simp [fallbackEnum, ih]

/-- The fallback enumeration assigns the ranks `i+1, i+2, ...` in order. -/
theorem fallbackEnum_map_rank (l : List Wine) :
    ∀ i, (fallbackEnum i l).map (fun r => r.rank)
      = (List.range' i l.length).map (fun k => (k : Int) + 1) := by
  induction l with
  | nil => intro i; rfl
  | cons w t ih => intro i; simp [fallbackEnum, ih, List.range']

/-- Away from index 0, no fallback wine is marked best. -/
theorem fallbackEnum_map_best_tail (l : List Wine) :
    ∀ i, (fallbackEnum (i + 1) l).map (fun r => r.best)
      = List.replicate l.length false := by
  induction l with
  | nil => intro i; rfl
  | cons w t ih =>
    intro i
    simp [fallbackEnum, ih, List.replicate]

/-- The fallback ranking of a non-empty catalog marks exactly its first
(cheapest) wine best. -/
theorem fallbackRanking_map_best (allw : List Wine) (hne : allw ≠ []) :
    (fallbackRanking allw).map (fun r => r.best)
      = true :: List.replicate (allw.length - 1) false := by
  unfold fallbackRanking
  have hp : (sortByPrice allw).length = allw.length :=
    (List.perm_insertionSort _ allw).length_eq
  rcases hs : sortByPrice allw with _ | ⟨w, t⟩
  · exact absurd (by simpa [hs] using hp) (by simpa using List.length_pos.mpr hne |>.ne)
  · have ht : t.length = allw.length - 1 := by
      have := hp
      rw [hs] at this
      simp at this
      omega
    simp [fallbackEnum, fallbackEnum_map_best_tail, ht]

/-- The fallback ranking orders wines by ascending price. -/
theorem fallbackRanking_pairwise_price (allw : List Wine) :
    (fallbackRanking allw).Pairwise (fun a b => a.price ≤ b.price) := by
  have hsorted : (sortByPrice allw).Pairwise (fun a b => a.price ≤ b.price) := by
    refine @List.sorted_insertionSort Wine (fun a b => a.price ≤ b.price) _
      ⟨fun a b => le_total a.price b.price⟩ ⟨fun _ _ _ h1 h2 => le_trans h1 h2⟩ allw
  have h1 := (List.pairwise_map (f := fun r : RankedWine => r.price)
    (R := fun a b => a ≤ b) (l := fallbackEnum 0 (sortByPrice allw))).symm
  rw [fallbackRanking]
  have h2 : ((fallbackEnum 0 (sortByPrice allw)).map (fun r => r.price)).Pairwise
      (fun a b => a ≤ b) := by
    rw [fallbackEnum_map_price]
    exact (List.pairwise_map (f := fun w : Wine => w.price)).mpr
      (by exact hsorted.imp (fun h => h))
  exact (List.pairwise_map (f := fun r : RankedWine => r.price)).mp h2

/-- C2: when the model output resolves to zero usable wines but the filtered
catalog is non-empty, the single-mode validator returns exactly the
deterministic fallback ranking: every filtered wine once (ids a permutation of
the catalog's), ordered by ascending price, ranks `1..N` in order, with only
the first (hence rank-1 and cheapest) wine marked `best=true`; in particular
the output is non-empty.  The positive-price hypothesis records the domain on
which the Python fallback is defined (`Product.to_dict` serialises a zero
price as `None`, which `float` would reject). -/
theorem c2_fallback_ranking (result : MResult) (allw : List Wine) (jp : String)
    (bottles : Nat) (featured : List Nat)
    (hjp : jp ≠ "journey")
    (hempty : enrichSingle allw result.wines = [])
    (hne : allw ≠ [])
    (_hpos : ∀ w ∈ allw, 0 < w.price) :
    (validate_and_enrich_result result allw jp bottles featured).wines
      = fallbackRanking allw ∧
    fallbackRanking allw ≠ [] ∧
    ((fallbackRanking allw).map (fun r => r.id)).Perm (allw.map (fun w => w.id)) ∧
    (fallbackRanking allw).map (fun r => r.rank)
      = (List.range allw.length).map (fun k => (k : Int) + 1) ∧
    (fallbackRanking allw).Pairwise (fun a b => a.price ≤ b.price) ∧
    (fallbackRanking allw).map (fun r => r.best)
      = true :: List.replicate (allw.length - 1) false ∧
    (∀ w ∈ fallbackRanking allw, w.best = true →
      ∀ v ∈ fallbackRanking allw, w.price ≤ v.price) := by
  have hlen : (fallbackRanking allw).length = allw.length := by
    rw [fallbackRanking, fallbackEnum_length]
    exact (List.perm_insertionSort _ allw).length_eq
  have hfb : (validate_and_enrich_result result allw jp bottles featured).wines
      = fallbackRanking allw := by
    rw [validate_single_branch result allw jp bottles featured hjp]
    rw [hempty]
    dsimp only
    have h1 : sortByRank [] = [] := rfl
    have h2 : dedupById [] = [] := rfl
    rw [h1, h2]
    have h3 : (if featured ≠ [] ∧ jp = "single" then applyFeatured featured ([] : List RankedWine)
        else ([] : List RankedWine)) = [] := by
      split
      · exact applyFeatured_nil featured
      · rfl
    rw [h3]
    have h4 : repairBest featured [] = [] := rfl
    rw [h4]
    simp [hne]
  refine ⟨hfb, ?_, ?_, ?_, fallbackRanking_pairwise_price allw, fallbackRanking_map_best allw hne, ?_⟩
  · intro h
    have := hlen
    rw [h] at this
    exact hne (List.length_eq_zero.mp this.symm)
  · rw [fallbackRanking, fallbackEnum_map_id]
    exact (List.perm_insertionSort (fun a b : Wine => a.price ≤ b.price) allw).map (fun w => w.id)
  · have hsp : (sortByPrice allw).length = allw.length :=
      (List.perm_insertionSort (fun a b : Wine => a.price ≤ b.price) allw).length_eq
    rw [fallbackRanking, fallbackEnum_map_rank, List.range_eq_range', hsp]
  · intro w hw hbest v hv
    have hpw := fallbackRanking_pairwise_price allw
    have hbm := fallbackRanking_map_best allw hne
    rcases hfbe : fallbackRanking allw with _ | ⟨h0, t0⟩
    · rw [hfbe] at hw; exact absurd hw (List.not_mem_nil w)
    · rw [hfbe] at hw hv hpw hbm
      have hw0 : w = h0 := by
        rcases List.mem_cons.mp hw with h | h
        · exact h
        · exfalso
          have : w.best ∈ t0.map (fun r => r.best) := List.mem_map_of_mem _ h
          have hrep : t0.map (fun r => r.best) = List.replicate (allw.length - 1) false := by
            simpa using congrArg List.tail hbm
          rw [hrep, hbest] at this
          exact absurd (List.eq_of_mem_replicate this) (by simp)
      subst hw0
      rcases List.mem_cons.mp hv with h | h
      · subst h
        exact le_refl _
      · exact (List.pairwise_cons.mp hpw).1 v h

/-- A fold that keeps the last element satisfying `Q` returns a member of the
list (or its start value). -/
theorem foldl_ite_some_mem {α : Type} (Q : α → Prop) [DecidablePred Q] :
    ∀ (l : List α) (acc : Option α) (w : α),
      l.foldl (fun a x => if Q x then some x else a) acc = some w → w ∈ l ∨ acc = some w := by
  intro l
  induction l with
  | nil => intro acc w h; exact Or.inr h
  | cons x t ih =>
    intro acc w h
    simp only [List.foldl_cons] at h
    rcases ih _ w h with h' | h'
    · exact Or.inl (List.mem_cons_of_mem x h')
    · by_cases hq : Q x
      · rw [if_pos hq] at h'
        injection h' with hxw
        exact Or.inl (by rw [← hxw]; exact List.mem_cons_self x t)
      · rw [if_neg hq] at h'
        exact Or.inr h'

/-- A wine found in the by-id dict is a member of the catalog. -/
theorem lookupById_mem {allw : List Wine} {i : Nat} {w : Wine}
    (h : lookupById allw i = some w) : w ∈ allw := by
  rcases foldl_ite_some_mem (fun x : Wine => x.id ≠ 0 ∧ x.id = i) allw none w h with h' | h'
  · exact h'
  · cases h'

/-- A wine found in the by-name dict is a member of the catalog. -/
theorem lookupByName_mem {allw : List Wine} {key : Str} {w : Wine}
    (h : lookupByName allw key = some w) : w ∈ allw := by
  rcases foldl_ite_some_mem (fun x : Wine => x.name ≠ [] ∧ normName x.name = key) allw none w h with h' | h'
  · exact h'
  · cases h'

/-- A resolved wine is a member of the catalog. -/
theorem resolveWine_mem {allw : List Wine} {mid : Nat} {mname : Str} {w : Wine}
    (h : resolveWine allw mid mname = some w) : w ∈ allw := by
  unfold resolveWine at h
  split at h
  · exact lookupById_mem h
  · split at h
    · exact lookupByName_mem h
    · cases h

/-- Every wine produced by the single-mode enrichment loop copies id, name and
price from some catalog entry. -/
theorem enrichSingleGo_fromCatalog (allw : List Wine) :
    ∀ (items : List MWine) (n : Nat) (r : RankedWine),
      r ∈ enrichSingleGo allw items n → fromCatalog allw r.id r.name r.price := by
  intro items
  induction items with
  | nil => intro n r h; cases h
  | cons it rest ih =>
    intro n r h
    rw [enrichSingleGo] at h
    rcases hres : resolveWine allw it.id it.name with _ | w
    · rw [hres] at h
      exact ih n r h
    · rw [hres] at h
      rcases List.mem_cons.mp h with h' | h'
      · subst h'
        exact ⟨w, resolveWine_mem hres, rfl, rfl, rfl⟩
      · exact ih (n + 1) r h'

/-- The rank sort is a permutation. -/
theorem sortByRank_perm (l : List RankedWine) : (sortByRank l).Perm l :=
  List.perm_insertionSort _ l

/-- The rank sort sorts by nondecreasing declared rank. -/
theorem sortByRank_sorted (l : List RankedWine) :
    (sortByRank l).Pairwise (fun a b => a.rank ≤ b.rank) :=
  @List.sorted_insertionSort RankedWine (fun a b => a.rank ≤ b.rank) _
    ⟨fun a b => le_total a.rank b.rank⟩ ⟨fun _ _ _ h1 h2 => le_trans h1 h2⟩ l

/-- The dedup loop returns a sublist of its input. -/
theorem dedupByIdGo_sublist : ∀ (l : List RankedWine) (seen : List Nat),
    List.Sublist (dedupByIdGo l seen) l := by
  intro l
  induction l with
  | nil => intro seen; simp [dedupByIdGo]
  | cons w t ih =>
    intro seen
    rw [dedupByIdGo]
    split
    · exact List.Sublist.cons₂ w (ih (w.id :: seen))
    · exact List.Sublist.cons w (ih seen)

/-- The dedup loop yields pairwise-distinct ids, none of them previously seen. -/
theorem dedupByIdGo_id_spec : ∀ (l : List RankedWine) (seen : List Nat),
    ((dedupByIdGo l seen).map (fun r => r.id)).Nodup ∧
    ∀ r ∈ dedupByIdGo l seen, r.id ∉ seen := by
  intro l
  induction l with
  | nil => intro seen; exact ⟨List.nodup_nil, by intro r h; cases h⟩
  | cons w t ih =>
    intro seen
    rw [dedupByIdGo]
    split
    · rename_i hcond
      obtain ⟨hnd, hnotseen⟩ := ih (w.id :: seen)
      constructor
      · rw [List.map_cons, List.nodup_cons]
        refine ⟨?_, hnd⟩
        intro hbad
        rcases List.mem_map.mp hbad with ⟨r, hr, hid⟩
        exact (hnotseen r hr) (by rw [hid]; exact List.mem_cons_self _ _)
      · intro r hr
        rcases List.mem_cons.mp hr with h' | h'
        · subst h'
          intro hbad
          exact hcond.2 (List.elem_eq_true_of_mem hbad)
        · intro hbad
          exact (hnotseen r h') (List.mem_cons_of_mem _ hbad)
    · obtain ⟨h1, h2⟩ := ih seen
      exact ⟨h1, fun r hr => h2 r hr⟩

/-- Clearing all best flags changes nothing besides `best`. -/
theorem clearBest_map_stripBest (l : List RankedWine) :
    (clearBest l).map stripBest = l.map stripBest := by
  rw [clearBest, List.map_map]
  rfl

/-- Marking the first matching wine best changes nothing besides `best`. -/
theorem markBestFirst_map_stripBest (p : RankedWine → Bool) :
    ∀ l : List RankedWine, (markBestFirst p l).map stripBest = l.map stripBest := by
  intro l
  induction l with
  | nil => rfl
  | cons w t ih =>
    rw [markBestFirst]
    split
    · rfl
    · rw [List.map_cons, List.map_cons, ih]

/-- Marking the head best changes nothing besides `best`. -/
theorem markBestHead_map_stripBest :
    ∀ l : List RankedWine, (markBestHead l).map stripBest = l.map stripBest := by
  intro l
  cases l with
  | nil => rfl
  | cons w t => rfl

/-- Mapping any function that touches only `best` preserves the stripped
projection. -/
theorem map_stripBest_of_pointwise {g : RankedWine → RankedWine}
    (hg : ∀ w, stripBest (g w) = stripBest w) (l : List RankedWine) :
    (l.map g).map stripBest = l.map stripBest := by
  rw [List.map_map]
  exact List.map_congr_left (fun w _ => hg w)

/-- One featured-wine pass changes nothing besides `best`. -/
theorem applyFeaturedStep_map_stripBest (l : List RankedWine) (fid : Nat) :
    (applyFeaturedStep l fid).map stripBest = l.map stripBest := by
  unfold applyFeaturedStep
  rcases h : l.find? (fun w => w.id = fid) with _ | fw <;> simp only [h]
  split
  · rw [markBestFirst_map_stripBest, clearBest_map_stripBest]
  · rfl

/-- The featured-wine loop changes nothing besides `best`. -/
theorem applyFeatured_map_stripBest (featured : List Nat) :
    ∀ l : List RankedWine, (applyFeatured featured l).map stripBest = l.map stripBest := by
  induction featured with
  | nil => intro l; rfl
  | cons f t ih =>
    intro l
    have h1 : applyFeatured (f :: t) l = applyFeatured t (applyFeaturedStep l f) := rfl
    rw [h1, ih, applyFeaturedStep_map_stripBest]

/-- The best-flag repair changes nothing besides `best`. -/
theorem repairBest_map_stripBest (featured : List Nat) (l : List RankedWine) :
    (repairBest featured l).map stripBest = l.map stripBest := by
  unfold repairBest
  dsimp only
  rcases h : l.find? (fun w => w.rank = 1) with _ | r1 <;> simp only [h]
  case none =>
    by_cases h0 : (l.filter (fun w => w.best)).length = 0
    · simp only [if_pos h0]
      exact markBestHead_map_stripBest l
    · simp only [if_neg h0]
      by_cases h1 : (l.filter (fun w => w.best)).length > 1
      · simp only [if_pos h1]
        rcases hh : (l.filter (fun w => w.best ∧ featured.contains w.id)).head? with _ | fb <;>
          simp only [hh]
        · cases l with
          | nil => rfl
          | cons w t =>
            simp only [List.map_cons]
            rw [map_stripBest_of_pointwise (fun x => by split <;> rfl) t]
        · exact map_stripBest_of_pointwise (fun x => by split <;> rfl) l
      · simp only [if_neg h1]
  case some =>
    split
    · rw [markBestFirst_map_stripBest, clearBest_map_stripBest]
    · rfl

/-- Equal stripped projections give equal id projections. -/
theorem map_id_of_stripBest {l l' : List RankedWine}
    (h : l'.map stripBest = l.map stripBest) :
    l'.map (fun r => r.id) = l.map (fun r => r.id) := by
  have h2 : l'.map ((fun t : Nat × Str × String × Rat × Str × Int => t.1) ∘ stripBest)
      = l.map ((fun t : Nat × Str × String × Rat × Str × Int => t.1) ∘ stripBest) := by
    rw [← List.map_map, h, List.map_map]
  exact h2

/-- Equal stripped projections give equal rank projections. -/
theorem map_rank_of_stripBest {l l' : List RankedWine}
    (h : l'.map stripBest = l.map stripBest) :
    l'.map (fun r => r.rank) = l.map (fun r => r.rank) := by
  have h2 : l'.map ((fun t : Nat × Str × String × Rat × Str × Int => t.2.2.2.2.2) ∘ stripBest)
      = l.map ((fun t : Nat × Str × String × Rat × Str × Int => t.2.2.2.2.2) ∘ stripBest) := by
    rw [← List.map_map, h, List.map_map]
  exact h2

/-- Equal stripped projections preserve sortedness by rank. -/
theorem pairwise_rank_of_stripBest {l l' : List RankedWine}
    (h : l'.map stripBest = l.map stripBest)
    (hp : l.Pairwise (fun a b => a.rank ≤ b.rank)) :
    l'.Pairwise (fun a b => a.rank ≤ b.rank) := by
  have h1 := map_rank_of_stripBest h
  have h2 : (l.map (fun r => r.rank)).Pairwise (fun a b : Int => a ≤ b) :=
    (List.pairwise_map).mpr hp
  rw [← h1] at h2
  exact (List.pairwise_map).mp h2

/-- Equal stripped projections preserve the copied core fields membership. -/
theorem core_mem_of_stripBest {l l' : List RankedWine}
    (h : l'.map stripBest = l.map stripBest) :
    ∀ r ∈ l', ∃ r0 ∈ l, r.id = r0.id ∧ r.name = r0.name ∧ r.price = r0.price := by
  intro r hr
  have hm : stripBest r ∈ l'.map stripBest := List.mem_map_of_mem _ hr
  rw [h] at hm
  rcases List.mem_map.mp hm with ⟨r0, hr0, heq⟩
  have h1 : r0.id = r.id := congrArg (fun t => t.1) heq
  have h2 : r0.name = r.name := congrArg (fun t => t.2.1) heq
  have h3 : r0.price = r.price := congrArg (fun t => t.2.2.2.1) heq
  exact ⟨r0, hr0, h1.symm, h2.symm, h3.symm⟩

/-- Every fallback wine at start index `i` has rank at least `i + 1`. -/
theorem fallbackEnum_rank_ge :
    ∀ (l : List Wine) (i : Nat) (r : RankedWine), r ∈ fallbackEnum i l → (i : Int) + 1 ≤ r.rank := by
  intro l
  induction l with
  | nil => intro i r h; cases h
  | cons w t ih =>
    intro i r h
    rcases List.mem_cons.mp h with h' | h'
    · subst h'; simp
    · have := ih (i + 1) r h'
      push_cast at this ⊢
      omega

/-- The fallback enumeration is sorted by nondecreasing rank. -/
theorem fallbackEnum_pairwise_rank :
    ∀ (l : List Wine) (i : Nat), (fallbackEnum i l).Pairwise (fun a b => a.rank ≤ b.rank) := by
  intro l
  induction l with
  | nil => intro i; exact List.Pairwise.nil
  | cons w t ih =>
    intro i
    rw [fallbackEnum]
    refine List.Pairwise.cons ?_ (ih (i + 1))
    intro r hr
    have := fallbackEnum_rank_ge t (i + 1) r hr
    dsimp only
    push_cast at this ⊢
    omega

/-- The single-mode wines of the validator, unfolded to the repair pipeline
with its fallback. -/
theorem validate_single_wines (result : MResult) (allw : List Wine) (jp : String)
    (bottles : Nat) (featured : List Nat) (hjp : jp ≠ "journey") :
    (validate_and_enrich_result result allw jp bottles featured).wines
      = (if (repairBest featured (if featured ≠ [] ∧ jp = "single"
            then applyFeatured featured (dedupById (sortByRank (enrichSingle allw result.wines)))
            else dedupById (sortByRank (enrichSingle allw result.wines)))).length = 0
         then (if allw ≠ [] then fallbackRanking allw else [])
         else repairBest featured (if featured ≠ [] ∧ jp = "single"
            then applyFeatured featured (dedupById (sortByRank (enrichSingle allw result.wines)))
            else dedupById (sortByRank (enrichSingle allw result.wines)))) := by
  rw [validate_single_branch result allw jp bottles featured hjp]
  dsimp only
  by_cases h : (repairBest featured (if featured ≠ [] ∧ jp = "single"
      then applyFeatured featured (dedupById (sortByRank (enrichSingle allw result.wines)))
      else dedupById (sortByRank (enrichSingle allw result.wines)))).length = 0
  · rw [if_pos h, if_pos h]
    by_cases h2 : allw ≠ []
    · rw [if_pos h2, if_pos h2]
    · rw [if_neg h2, if_neg h2]
  · rw [if_neg h, if_neg h]

/-- C4, amended: the single-mode `all_rankings` list carries pairwise-distinct
ids all drawn from the filtered catalog, in nondecreasing declared-rank order.
It need not be a permutation of the catalog with ranks exactly 1..N, because
the validator deliberately accepts partial rankings and keeps the
model-declared rank values (renumbering happens only in the fallback). -/
theorem c4_all_rankings_amended (result : MResult) (allw : List Wine) (jp : String)
    (bottles : Nat) (featured : List Nat)
    (hjp : jp ≠ "journey")
    (hnodup : (allw.map (fun w => w.id)).Nodup) :
    ((allRankings (validate_and_enrich_result result allw jp bottles featured)).map
      (fun r => r.id)).Nodup ∧
    (∀ r ∈ allRankings (validate_and_enrich_result result allw jp bottles featured),
      r.id ∈ allw.map (fun w => w.id)) ∧
    (allRankings (validate_and_enrich_result result allw jp bottles featured)).Pairwise
      (fun a b => a.rank ≤ b.rank) := by
  have hw := validate_single_wines result allw jp bottles featured hjp
  have hall : allRankings (validate_and_enrich_result result allw jp bottles featured)
      = (validate_and_enrich_result result allw jp bottles featured).wines := rfl
  set D := dedupById (sortByRank (enrichSingle allw result.wines)) with hD
  set F := (if featured ≠ [] ∧ jp = "single" then applyFeatured featured D else D) with hF
  by_cases hz : (repairBest featured F).length = 0
  · rw [hall, hw, if_pos hz]
    by_cases h2 : allw ≠ []
    · rw [if_pos h2]
      have hmapid : (fallbackRanking allw).map (fun r => r.id)
          = (sortByPrice allw).map (fun w => w.id) := by
        rw [fallbackRanking, fallbackEnum_map_id]
      have hperm : ((sortByPrice allw).map (fun w => w.id)).Perm (allw.map (fun w => w.id)) :=
        (List.perm_insertionSort (fun a b : Wine => a.price ≤ b.price) allw).map (fun w => w.id)
      refine ⟨?_, ?_, ?_⟩
      · rw [hmapid]
        exact hperm.nodup_iff.mpr hnodup
      · intro r hr
        have hmm : r.id ∈ (fallbackRanking allw).map (fun r => r.id) :=
          List.mem_map_of_mem (fun r : RankedWine => r.id) hr
        rw [hmapid] at hmm
        exact hperm.mem_iff.mp hmm
      · exact fallbackEnum_pairwise_rank (sortByPrice allw) 0
    · rw [if_neg h2]
      refine ⟨List.nodup_nil, ?_, List.Pairwise.nil⟩
      intro r h
      cases h
  · rw [hall, hw, if_neg hz]
    have hstrip : (repairBest featured F).map stripBest = D.map stripBest := by
      rw [repairBest_map_stripBest, hF]
      split
      · exact applyFeatured_map_stripBest featured D
      · rfl
    have hDnodup : (D.map (fun r => r.id)).Nodup := (dedupByIdGo_id_spec _ []).1
    have hDcat : ∀ r ∈ D, r.id ∈ allw.map (fun w => w.id) := by
      intro r hr
      have h1 : r ∈ sortByRank (enrichSingle allw result.wines) :=
        (dedupByIdGo_sublist _ []).mem hr
      have h2 : r ∈ enrichSingle allw result.wines :=
        (sortByRank_perm _).mem_iff.mp h1
      rcases enrichSingleGo_fromCatalog allw result.wines 0 r h2 with ⟨c, hc, hid, _, _⟩
      rw [hid]
      exact List.mem_map_of_mem (fun w : Wine => w.id) hc
    have hDpw : D.Pairwise (fun a b => a.rank ≤ b.rank) :=
      (sortByRank_sorted (enrichSingle allw result.wines)).sublist (dedupByIdGo_sublist _ [])
    refine ⟨?_, ?_, ?_⟩
    · rw [map_id_of_stripBest hstrip]
      exact hDnodup
    · intro r hr
      rcases core_mem_of_stripBest hstrip r hr with ⟨r0, hr0, hid, _, _⟩
      rw [hid]
      exact hDcat r0 hr0
    · exact pairwise_rank_of_stripBest hstrip hDpw

/-- Witness for C4: concrete application over the two-wine catalog with the
partial one-wine model output. -/
theorem c4_all_rankings_amended_witness :
    ("single" : String) ≠ "journey" ∧
    (([exA, exB].map (fun w => w.id)).Nodup) ∧
    ((allRankings (validate_and_enrich_result exPartial [exA, exB] "single" 0 [])).map
      (fun r => r.id)).Nodup :=
  ⟨by decide, by decide,
    (c4_all_rankings_amended exPartial [exA, exB] "single" 0 [] (by decide) (by decide)).1⟩

/-- A single-mode result carries no journeys. -/
theorem validate_single_journeys (result : MResult) (allw : List Wine) (jp : String)
    (bottles : Nat) (featured : List Nat) (hjp : jp ≠ "journey") :
    (validate_and_enrich_result result allw jp bottles featured).journeys = [] := by
  rw [validate_single_branch result allw jp bottles featured hjp]
  dsimp only
  have h : ∀ L : List RankedWine,
      (if L.length = 0 then
        (if allw ≠ [] then ({ wines := fallbackRanking allw, journeys := [] } : VResult)
         else { wines := [], journeys := [] })
       else { wines := L, journeys := [] }).journeys = [] := by
    intro L
    split
    · split <;> rfl
    · rfl
  exact h _

/-- A journey-mode result carries no single-mode wines. -/
theorem validate_journey_wines (result : MResult) (allw : List Wine)
    (bottles : Nat) (featured : List Nat) :
    (validate_and_enrich_result result allw "journey" bottles featured).wines = [] := by
  rw [validate_journey_branch]
  dsimp only
  split <;> split <;> rfl

/-- Every wine of an enriched journey copies id, name and price from some
catalog entry. -/
theorem enrichJourneyWines_fromCatalog (allw : List Wine) (items : List MWine) :
    ∀ w ∈ enrichJourneyWines allw items, fromCatalog allw w.id w.name w.price := by
  intro w hw
  rcases List.mem_filterMap.mp hw with ⟨it, _, hf⟩
  rcases hres : resolveWine allw it.id it.name with _ | c
  · rw [hres] at hf; cases hf
  · rw [hres] at hf
    injection hf with hfe
    subst hfe
    exact ⟨c, resolveWine_mem hres, rfl, rfl, rfl⟩

/-- Every wine of every validated journey copies id, name and price from some
catalog entry. -/
theorem validateJourneys_fromCatalog (allw : List Wine) (bottles : Nat)
    (js : List MJourney) :
    ∀ j ∈ validateJourneys allw bottles js, ∀ w ∈ j.wines,
      fromCatalog allw w.id w.name w.price := by
  suffices h : ∀ (js : List MJourney) (acc : List VJourney),
      (∀ j ∈ acc, ∀ w ∈ j.wines, fromCatalog allw w.id w.name w.price) →
      ∀ j ∈ js.foldl (fun acc j =>
        let jw := enrichJourneyWines allw j.jwines
        if jw ≠ [] then
          if bottles ≠ 0 ∧ jw.length ≠ bottles then acc
          else acc ++ [{ jid := j.jid.getD ((acc.length : Int) + 1),
                         jname := j.jname.getD (strL "Percorso di Degustazione"),
                         jreason := j.jreason.getD [],
                         wines := jw }]
        else acc) acc, ∀ w ∈ j.wines, fromCatalog allw w.id w.name w.price by
    intro j hj
    exact h js [] (by intro j' hj'; cases hj') j hj
  intro js
  induction js with
  | nil => intro acc hacc j hj; exact hacc j hj
  | cons x t ih =>
    intro acc hacc j hj
    simp only [List.foldl_cons] at hj
    refine ih _ ?_ j hj
    intro j' hj'
    by_cases h1 : enrichJourneyWines allw x.jwines ≠ []
    · simp only [if_pos h1] at hj'
      by_cases h2 : bottles ≠ 0 ∧ (enrichJourneyWines allw x.jwines).length ≠ bottles
      · rw [if_pos h2] at hj'
        exact hacc j' hj'
      · rw [if_neg h2] at hj'
        rcases List.mem_append.mp hj' with h | h
        · exact hacc j' h
        · simp only [List.mem_singleton] at h
          subst h
          exact enrichJourneyWines_fromCatalog allw x.jwines
    · simp only [if_neg h1] at hj'
      exact hacc j' hj'

/-- Every fallback wine copies id, name and price from some wine of the sorted
list it enumerates. -/
theorem fallbackEnum_fromCatalog :
    ∀ (l : List Wine) (i : Nat) (r : RankedWine), r ∈ fallbackEnum i l →
      ∃ c ∈ l, r.id = c.id ∧ r.name = c.name ∧ r.price = c.price := by
  intro l
  induction l with
  | nil => intro i r h; cases h
  | cons w t ih =>
    intro i r h
    rcases List.mem_cons.mp h with h' | h'
    · subst h'
      exact ⟨w, List.mem_cons_self w t, rfl, rfl, rfl⟩
    · rcases ih (i + 1) r h' with ⟨c, hc, he⟩
      exact ⟨c, List.mem_cons_of_mem w hc, he⟩

/-- C6: every wine surfaced by the validator — single-mode ranking (including
the fallback) or journey wine — copies its id, name and price from some entry
of the authoritative filtered catalog; nothing is fabricated. -/
theorem c6_output_resolves_to_catalog (result : MResult) (allw : List Wine)
    (jp : String) (bottles : Nat) (featured : List Nat) :
    (∀ r ∈ (validate_and_enrich_result result allw jp bottles featured).wines,
      fromCatalog allw r.id r.name r.price) ∧
    (∀ j ∈ (validate_and_enrich_result result allw jp bottles featured).journeys,
      ∀ w ∈ j.wines, fromCatalog allw w.id w.name w.price) := by
  by_cases hjp : jp = "journey"
  · subst hjp
    constructor
    · rw [validate_journey_wines]
      intro r h
      cases h
    · rw [validate_journey_branch]
      dsimp only
      by_cases hgt : (validateJourneys allw bottles result.journeys).length > 3
      · rw [if_pos hgt]
        split
        · intro j hj
          simp at hj
        · intro j hj
          dsimp only at hj
          exact validateJourneys_fromCatalog allw bottles result.journeys j
            (List.mem_of_mem_take hj)
      · rw [if_neg hgt]
        split
        · intro j hj
          simp at hj
        · intro j hj
          dsimp only at hj
          exact validateJourneys_fromCatalog allw bottles result.journeys j hj
  · constructor
    · set D := dedupById (sortByRank (enrichSingle allw result.wines)) with hD
      set F := (if featured ≠ [] ∧ jp = "single" then applyFeatured featured D else D) with hF
      rw [validate_single_wines result allw jp bottles featured hjp]
      by_cases hz : (repairBest featured F).length = 0
      · rw [if_pos hz]
        by_cases hne : allw ≠ []
        · rw [if_pos hne]
          intro r hr
          rcases fallbackEnum_fromCatalog (sortByPrice allw) 0 r hr with ⟨c, hc, he⟩
          exact ⟨c, (List.perm_insertionSort (fun a b : Wine => a.price ≤ b.price) allw).mem_iff.mp hc, he⟩
        · rw [if_neg hne]
          intro r hr
          cases hr
      · rw [if_neg hz]
        have hstrip : (repairBest featured F).map stripBest = D.map stripBest := by
          rw [repairBest_map_stripBest, hF]
          split
          · exact applyFeatured_map_stripBest featured D
          · rfl
        intro r hr
        rcases core_mem_of_stripBest hstrip r hr with ⟨r0, hr0, hid, hname, hprice⟩
        have h1 : r0 ∈ sortByRank (enrichSingle allw result.wines) :=
          (dedupByIdGo_sublist _ []).mem hr0
        have h2 : r0 ∈ enrichSingle allw result.wines :=
          (sortByRank_perm _).mem_iff.mp h1
        rcases enrichSingleGo_fromCatalog allw result.wines 0 r0 h2 with ⟨c, hc, hcid, hcname, hcprice⟩
        exact ⟨c, hc, hid.trans hcid, hname.trans hcname, hprice.trans hcprice⟩
    · rw [validate_single_journeys result allw jp bottles featured hjp]
      intro j hj
      cases hj

/-- C5: the catalog filter applies no type restriction for preference `any`
(the filtered set is exactly the venue's available catalog when no budget is
known), and a known numeric budget ceiling `B > 0` restricts exactly to items
priced at or below `B × 1.15` — no lower price bound is applied. -/
theorem c5_catalog_filter (products : List Wine) (venueId : Nat)
    (wine_type_pref : String) (B : Rat) (hB : 0 < B) :
    filterCatalog products venueId "any" .bnone
      = products.filter (fun p => p.venue_id = venueId ∧ p.is_available) ∧
    filterCatalog products venueId wine_type_pref (.bnum B)
      = (filterCatalog products venueId wine_type_pref .bnone).filter
          (fun p => p.price ≤ B * (115 / 100)) ∧
    (∀ p, p ∈ filterCatalog products venueId "any" (.bnum B) ↔
      p ∈ products ∧ p.venue_id = venueId ∧ p.is_available = true
        ∧ p.price ≤ B * (115 / 100)) := by
  have hBm : budgetMax (.bnum B) = some B := by
    rw [budgetMax, if_neg hB.ne']
  refine ⟨?_, ?_, ?_⟩
  · rw [filterCatalog]
    simp [budgetMax]
  · rw [filterCatalog, filterCatalog, hBm]
    simp [budgetMax]
  · intro p
    rw [filterCatalog, hBm]
    rw [if_neg (by simp : ¬ (("any" : String) ≠ "" ∧ ("any" : String) ≠ "any"))]
    simp only [List.mem_filter, decide_eq_true_eq]
    tauto

unseal Rat.mul Rat.inv in
/-- Witness for C5: the spec's end-to-end example — catalog A €18 red, B €25
red, C €30 white, color red, budget €20 — filters to exactly item A
(B fails because €25 exceeds €23). -/
theorem c5_catalog_filter_witness :
    (0 : Rat) < 20 ∧
    filterCatalog [exA, exB, exC] 9 "red" (.bnum 20)
      = (filterCatalog [exA, exB, exC] 9 "red" .bnone).filter
          (fun p => p.price ≤ 20 * (115 / 100)) ∧
    filterCatalog [exA, exB, exC] 9 "red" (.bnum 20) = [exA] :=
  ⟨by decide,
   (c5_catalog_filter [exA, exB, exC] 9 "red" 20 (by decide)).2.1,
   by decide⟩

/-- The most-recent-proposal fold never loses a non-`none` accumulator. -/
theorem mrFoldl_isSome (l : List Proposal) :
    ∀ q : Proposal, l.foldl (fun acc p =>
      match acc with
      | none => some p
      | some q' => if q'.created_at < p.created_at then some p else acc) (some q) ≠ none := by
  induction l with
  | nil => intro q h; cases h
  | cons x t ih =>
    intro q
    simp only [List.foldl_cons]
    split
    · exact ih x
    · exact ih q

/-- A most-recent query returns `none` exactly when no proposal matches. -/
theorem mostRecentProposal_eq_none {ps : List Proposal} {sid wid : Nat} :
    mostRecentProposal ps sid wid = none ↔
      ps.filter (fun p => p.session_id = sid ∧ p.product_id = wid) = [] := by
  rw [mostRecentProposal]
  rcases h : ps.filter (fun p => p.session_id = sid ∧ p.product_id = wid) with _ | ⟨x, t⟩
  · rw [h]
    simp
  · rw [h]
    simp only [List.foldl_cons]
    constructor
    · intro hc
      exact absurd hc (mrFoldl_isSome t x)
    · intro hc
      exact absurd hc (List.cons_ne_nil x t)

/-- C7, amended: confirming an item id marks the most recent matching Proposal
— whether or not it is already selected — leaving the row count unchanged and
all other rows untouched; when no proposal matches and the product exists,
exactly one new Proposal is created directly in the selected state; and the
operation is idempotent — confirming the same id twice starting from no
matching proposal leaves exactly one matching Proposal, which is selected,
with exactly one row added in total. -/
theorem c7_confirm_amended (st : Store) (sid wid now1 now2 pid1 pid2 : Nat) :
    (∀ p, mostRecentProposal st.proposals sid wid = some p →
      (confirmWine st sid wid now1 pid1).proposals.length = st.proposals.length ∧
      (∀ q ∈ (confirmWine st sid wid now1 pid1).proposals,
        q.pid = p.pid → q.is_selected = true) ∧
      (∀ q ∈ st.proposals, q.pid ≠ p.pid → q ∈ (confirmWine st sid wid now1 pid1).proposals)) ∧
    (mostRecentProposal st.proposals sid wid = none →
      (st.products.find? (fun w => w.id = wid)).isSome →
      ((confirmWine st sid wid now1 pid1).proposals.filter
          (fun p => p.session_id = sid ∧ p.product_id = wid)).length = 1 ∧
      (∀ p ∈ (confirmWine st sid wid now1 pid1).proposals.filter
          (fun p => p.session_id = sid ∧ p.product_id = wid), p.is_selected = true) ∧
      ((confirmWine (confirmWine st sid wid now1 pid1) sid wid now2 pid2).proposals.filter
          (fun p => p.session_id = sid ∧ p.product_id = wid)).length = 1 ∧
      (∀ p ∈ (confirmWine (confirmWine st sid wid now1 pid1) sid wid now2 pid2).proposals.filter
          (fun p => p.session_id = sid ∧ p.product_id = wid), p.is_selected = true) ∧
      (confirmWine (confirmWine st sid wid now1 pid1) sid wid now2 pid2).proposals.length
        = st.proposals.length + 1) := by
  constructor
  · intro p hp
    have hconf : confirmWine st sid wid now1 pid1
        = { st with proposals :=
            st.proposals.map (fun q => if q.pid = p.pid then mark_as_selected q now1 else q) } := by
      rw [confirmWine, hp]
    rw [hconf]
    refine ⟨List.length_map _ _, ?_, ?_⟩
    · intro q hq hqp
      rcases List.mem_map.mp hq with ⟨q0, _, hq0⟩
      by_cases h0 : q0.pid = p.pid
      · rw [if_pos h0] at hq0
        rw [← hq0]
        rfl
      · rw [if_neg h0] at hq0
        rw [← hq0] at hqp
        exact absurd hqp h0
    · intro q hq hqp
      have : (if q.pid = p.pid then mark_as_selected q now1 else q) = q := if_neg hqp
      rw [← this]
      exact List.mem_map_of_mem _ hq
  · intro hnone hsome
    rcases hfind : st.products.find? (fun w => w.id = wid) with _ | prod
    · rw [hfind] at hsome; cases hsome
    · have hrow : confirmWine st sid wid now1 pid1
          = { st with proposals := st.proposals ++
              [{ pid := pid1, session_id := sid, product_id := wid, proposal_rank := 1,
                 price := prod.price, margin := prod.margin, mode := "single",
                 is_selected := true, selected_at := some now1, created_at := now1 }] } := by
        rw [confirmWine, hnone, hfind]
      have hfempty : st.proposals.filter (fun p => p.session_id = sid ∧ p.product_id = wid) = [] :=
        mostRecentProposal_eq_none.mp hnone
      set newRow : Proposal :=
        { pid := pid1, session_id := sid, product_id := wid, proposal_rank := 1,
          price := prod.price, margin := prod.margin, mode := "single",
          is_selected := true, selected_at := some now1, created_at := now1 } with hnew
      have hfilter1 : (confirmWine st sid wid now1 pid1).proposals.filter
          (fun p => p.session_id = sid ∧ p.product_id = wid) = [newRow] := by
        rw [hrow]
        dsimp only
        rw [List.filter_append, hfempty]
        simp [hnew]
      have hmr1 : mostRecentProposal (confirmWine st sid wid now1 pid1).proposals sid wid
          = some newRow := by
        rw [mostRecentProposal, hfilter1]
        rfl
      have hconf2 : confirmWine (confirmWine st sid wid now1 pid1) sid wid now2 pid2
          = { confirmWine st sid wid now1 pid1 with
              proposals := (confirmWine st sid wid now1 pid1).proposals.map
                (fun q => if q.pid = newRow.pid then mark_as_selected q now2 else q) } := by
        rw [confirmWine, hmr1]
      have hpred : ∀ q : Proposal,
          (decide (q.session_id = sid ∧ q.product_id = wid))
            = decide ((if q.pid = newRow.pid then mark_as_selected q now2 else q).session_id = sid
                ∧ (if q.pid = newRow.pid then mark_as_selected q now2 else q).product_id = wid) := by
        intro q
        by_cases h0 : q.pid = newRow.pid
        · rw [if_pos h0]
          rfl
        · rw [if_neg h0]
      have hfilter2 : (confirmWine (confirmWine st sid wid now1 pid1) sid wid now2 pid2).proposals.filter
          (fun p => p.session_id = sid ∧ p.product_id = wid)
            = ([newRow].map (fun q => if q.pid = newRow.pid then mark_as_selected q now2 else q)) := by
        rw [hconf2]
        dsimp only
        rw [List.filter_map]
        rw [show ((fun p : Proposal => decide (p.session_id = sid ∧ p.product_id = wid)) ∘
            (fun q => if q.pid = newRow.pid then mark_as_selected q now2 else q))
          = (fun p : Proposal => decide (p.session_id = sid ∧ p.product_id = wid)) from
            funext (fun q => (hpred q).symm)]
        rw [hfilter1]
      refine ⟨?_, ?_, ?_, ?_, ?_⟩
      · rw [hfilter1]
        rfl
      · intro p hp
        rw [hfilter1] at hp
        rcases List.mem_singleton.mp hp with h
        rw [h]
      · rw [hfilter2]
        rfl
      · intro p hp
        rw [hfilter2] at hp
        rcases List.mem_singleton.mp (by simpa using hp) with h
        rw [h]
        rfl
      · rw [hconf2]
        dsimp only
        rw [List.length_map, hrow]
        dsimp only
        rw [List.length_append]
        rfl

/-- Witness for C7: confirming product 7 twice in an empty store creates and
keeps exactly one selected matching proposal. -/
theorem c7_confirm_amended_witness :
    mostRecentProposal exEmptyStore.proposals 1 7 = none ∧
    ((confirmWine (confirmWine exEmptyStore 1 7 30 99) 1 7 31 100).proposals.filter
        (fun p => p.session_id = 1 ∧ p.product_id = 7)).length = 1 :=
  ⟨rfl, ((c7_confirm_amended exEmptyStore 1 7 30 31 99 100).2 rfl (by decide)).2.2.1⟩

/-- Witness for C2: an empty model output over the three-wine catalog yields
exactly the fallback ranking. -/
theorem c2_fallback_ranking_witness :
    enrichSingle [exA, exB, exC] ([] : List MWine) = [] ∧
    (validate_and_enrich_result { wines := [], journeys := [] } [exA, exB, exC] "single" 0 []).wines
      = fallbackRanking [exA, exB, exC] :=
  ⟨rfl, (c2_fallback_ranking { wines := [], journeys := [] } [exA, exB, exC] "single" 0 []
    (by decide) rfl (by decide) (by decide)).1⟩

/-- C1: on the failing input — a model output whose rank-1 wine already has
`best=true` while a second wine also claims the flag — the validated
single-mode output keeps BOTH flags: the repair block never clears the extra
flag because its `elif` chain is skipped once a flagged rank-1 wine exists,
contradicting the claim (and the code's own comment) that exactly one wine
ends up with `best=true`. -/
theorem c1_validator_two_best_flags :
    ((validate_and_enrich_result exTwoBest [exA, exB] "single" 0 []).wines.filter
      (fun w => w.best)).length = 2 ∧
    (validate_and_enrich_result exTwoBest [exA, exB] "single" 0 []).wines.map
      (fun w => (w.id, w.rank, w.best)) = [(1, 1, true), (2, 2, true)] := by
  constructor <;> decide

/-- C3 counterexample: a model output with four journeys, each resolving to
exactly the target two wines, is NOT rejected as empty — the validator
truncates it to the first three journeys — refuting the claim that any
journey count other than 2 or 3 causes the whole batch to be rejected. -/
theorem c3_counterexample_four_journeys :
    (validateJourneys exCat8 2 exFourJourneys.journeys).length = 4 ∧
    (validate_and_enrich_result exFourJourneys exCat8 "journey" 2 []).journeys.length = 3 := by
  constructor <;> decide

/-- C4 counterexample: when the model ranks only one of two catalog wines,
with declared rank 3, the returned `all_rankings` is that single wine with
rank 3 — neither a permutation of the filtered catalog ids nor ranked 1..N. -/
theorem c4_counterexample_partial_ranking :
    (allRankings (validate_and_enrich_result exPartial [exA, exB] "single" 0 [])).map
      (fun w => (w.id, w.rank)) = [(1, 3)] ∧
    ¬ ((allRankings (validate_and_enrich_result exPartial [exA, exB] "single" 0 [])).map
      (fun w => w.id)).Perm ([exA, exB].map (fun w => w.id)) := by
  constructor
  · decide
  · intro h
    exact absurd h.length_eq (by decide)

/-- C7 counterexample: with an older unselected proposal and a newer
already-selected proposal for the same item, confirmation re-marks the newer
(already selected) row and leaves the most recent UNSELECTED proposal
untouched — refuting the claim that the most recent matching unselected
proposal is the one marked. -/
theorem c7_counterexample_selected_again :
    ((confirmWine exStore 1 7 30 99).proposals.map (fun p => (p.pid, p.is_selected)))
      = [(1, false), (2, true)] := by
  decide

/-- C9: the Journey Constructor is deterministic — its output does not depend
on the incoming global generator state, because `random.seed(bottles_count * 42)`
reinitialises the generator from the bottle count alone before the shuffle, so
two calls with the same item list and bottle count yield identical journeys. -/
theorem c9_journey_determinism (R : PRNG) (g₁ g₂ : Nat) (wines : List Wine)
    (bottles_count : Nat) :
    create_wine_journeys R g₁ wines bottles_count
      = create_wine_journeys R g₂ wines bottles_count := rfl

/-- A `find?` is the head of the corresponding filter. -/
theorem find?_eq_head_filter {α : Type} (p : α → Bool) :
    ∀ l : List α, l.find? p = (l.filter p).head? := by
  intro l
  induction l with
  | nil => rfl
  | cons x t ih =>
    by_cases h : p x = true
    · rw [List.find?_cons_of_pos _ h, List.filter_cons_of_pos h]
      rfl
    · rw [List.find?_cons_of_neg _ h, List.filter_cons_of_neg h]
      exact ih

/-- Characterisation of the draw loop over a list with pairwise-distinct ids:
the wines drawn are the first `k` not-yet-used ones, and the wines still
unused afterwards are exactly the remaining ones. -/
theorem takeUnused_spec (ws : List Wine) (hnd : (ws.map (fun w => w.id)).Nodup) :
    ∀ (k : Nat) (used : List Nat),
      (takeUnused ws k used).1
        = (ws.filter (fun w => w.id ≠ 0 ∧ ¬ used.contains w.id)).take k ∧
      ws.filter (fun w => w.id ≠ 0 ∧ ¬ ((takeUnused ws k used).2).contains w.id)
        = (ws.filter (fun w => w.id ≠ 0 ∧ ¬ used.contains w.id)).drop k := by
  intro k
  induction k with
  | zero => intro used; exact ⟨rfl, rfl⟩
  | succ k ih =>
    intro used
    rcases hfil : ws.filter (fun w => w.id ≠ 0 ∧ ¬ used.contains w.id) with _ | ⟨w, rest⟩
    · have hget : getNextUnused ws used = none := by
        rw [getNextUnused, find?_eq_head_filter, hfil]
        rfl
      constructor
      · simp only [takeUnused, hget]
        rw [hfil]
        rfl
      · simp only [takeUnused, hget]
        rw [hfil, List.drop_nil]
    · have hget : getNextUnused ws used = some w := by
        rw [getNextUnused, find?_eq_head_filter, hfil]
        rfl
      have hwrest : ∀ x ∈ rest, x.id ≠ w.id := by
        intro x hx hbad
        have hsub : List.Sublist (ws.filter (fun w => w.id ≠ 0 ∧ ¬ used.contains w.id)) ws :=
          List.filter_sublist ws
        have hnd2 : ((w :: rest).map (fun w => w.id)).Nodup := by
          rw [← hfil]
          exact hnd.sublist (hsub.map (fun w => w.id))
        rw [List.map_cons, List.nodup_cons] at hnd2
        exact hnd2.1 (hbad ▸ List.mem_map_of_mem (fun w => w.id) hx)
      have hstep : ws.filter (fun x => x.id ≠ 0 ∧ ¬ (w.id :: used).contains x.id) = rest := by
        have hcond : ∀ x ∈ ws,
            (decide (x.id ≠ 0 ∧ ¬ (w.id :: used).contains x.id))
              = (decide (¬ x.id = w.id) && decide (x.id ≠ 0 ∧ ¬ used.contains x.id)) := by
          intro x _
          by_cases hb : x.id = w.id <;> by_cases hc : used.contains x.id = true <;>
            by_cases ha : x.id = 0 <;> simp [List.contains_cons, ha, hb, hc]
        rw [List.filter_congr hcond, ← List.filter_filter, hfil]
        rw [List.filter_cons_of_neg (by simp)]
        exact List.filter_eq_self.mpr (fun x hx => by simpa using hwrest x hx)
      obtain ⟨ih1, ih2⟩ := ih (w.id :: used)
      constructor
      · simp only [takeUnused, hget]
        rw [ih1, hstep, hfil, List.take_succ_cons]
      · simp only [takeUnused, hget]
        rw [ih2, hstep, hfil, List.drop_succ_cons]

/-- Two consecutive blocks drawn from a list with pairwise-distinct ids carry
pairwise-distinct ids overall. -/
theorem two_block_nodup (copy : List Wine) (hcnd : (copy.map (fun w => w.id)).Nodup)
    (k : Nat) :
    ((copy.take k ++ (copy.drop k).take k).map (fun w => w.id)).Nodup := by
  rw [← List.take_add]
  exact hcnd.sublist (List.Sublist.map (fun w => w.id) (List.take_sublist (k + k) copy))

/-- C10: with a permuting shuffle and a non-empty candidate list of distinct
truthy ids, the Journey Constructor returns one or two journeys; a second
journey exists exactly when at least `2 × bottle_count` distinct items are
available (for targets of at least 2); every returned journey holds exactly
`min bottle_count n` items — the full target when enough items exist,
otherwise as many as available (the fallback journey); and no item id is
repeated across the returned journeys. -/
theorem c10_journey_construction (R : PRNG) (g : Nat) (wines : List Wine)
    (bottles_count : Nat)
    (hperm : ∀ (s : Nat) (l : List Wine), ((R.shuffle s l).1).Perm l)
    (hne : wines ≠ [])
    (htruthy : ∀ w ∈ wines, w.id ≠ 0)
    (hnodup : (wines.map (fun w => w.id)).Nodup) :
    ((create_wine_journeys R g wines bottles_count).length = 1 ∨
     (create_wine_journeys R g wines bottles_count).length = 2) ∧
    ((create_wine_journeys R g wines bottles_count).length = 2 ↔
      (2 ≤ bottles_count ∧ 2 * bottles_count ≤ wines.length)) ∧
    (∀ j ∈ create_wine_journeys R g wines bottles_count,
      j.wines.length = min bottles_count wines.length) ∧
    (((create_wine_journeys R g wines bottles_count).flatMap (fun j => j.wines)).map
      (fun w => w.id)).Nodup := by
  rw [create_wine_journeys, if_neg hne]
  dsimp only
  set copy := (R.shuffle (R.seed (bottles_count * 42)) wines).1 with hcopy
  have hcp : copy.Perm wines := hperm _ _
  have hclen : copy.length = wines.length := hcp.length_eq
  have hct : ∀ w ∈ copy, w.id ≠ 0 := fun w hw => htruthy w (hcp.mem_iff.mp hw)
  have hcnd : (copy.map (fun w => w.id)).Nodup :=
    ((hcp.map (fun w => w.id)).nodup_iff).mpr hnodup
  have hfilter0 : copy.filter (fun w => w.id ≠ 0 ∧ ¬ ([] : List Nat).contains w.id) = copy :=
    List.filter_eq_self.mpr (fun w hw => by simp [hct w hw])
  have hspec := takeUnused_spec copy hcnd
  have hwt : ∀ m : Nat, (wines.take m).length = min m wines.length :=
    fun m => List.length_take m wines
  have h1 : ∀ k : Nat, (takeUnused copy k []).1 = copy.take k := by
    intro k
    rw [(hspec k []).1, hfilter0]
  have h2 : ∀ k k' : Nat, (takeUnused copy k ((takeUnused copy k' []).2)).1
      = (copy.drop k').take k := by
    intro k k'
    rw [(hspec k _).1, (hspec k' []).2, hfilter0]
  have hlt : ∀ k : Nat, (copy.take k).length = min k wines.length := by
    intro k
    rw [List.length_take, hclen]
  have hlt2 : ∀ k k' : Nat, ((copy.drop k').take k).length = min k (wines.length - k') := by
    intro k k'
    rw [List.length_take, List.length_drop, hclen]
  have hn1 : 1 ≤ wines.length := List.length_pos.mpr hne
  have hfb : ∀ js : List Journey, js ≠ [] →
      (if js = [] ∧ wines ≠ [] then
        [({ id := 1,
            wines := if wines.length ≥ bottles_count then wines.take bottles_count else wines,
            description := "Percorso di degustazione selezionato" } : Journey)]
       else js) = js := by
    intro js hjs
    exact if_neg (fun hc => hjs hc.1)
  by_cases hb2 : bottles_count = 2
  · subst hb2
    rw [if_pos (show (2 : Nat) = 2 from rfl)]
    rw [h1 2, h2 2 2, hlt 2]
    by_cases hn4 : 4 ≤ wines.length
    · rw [if_pos (show min 2 wines.length = 2 by omega)]
      rw [if_pos (show ((copy.drop 2).take 2).length = 2 ∧ wines.length ≥ 4 from
        ⟨by rw [hlt2 2 2]; omega, hn4⟩)]
      rw [hfb _ (by simp)]
      refine ⟨Or.inr rfl, ⟨fun _ => ⟨by omega, by omega⟩, fun _ => rfl⟩, ?_, ?_⟩
      · intro j hj
        rcases List.mem_cons.mp hj with h | h
        · rw [h]
          dsimp only
          have e1 := hlt 2
          omega
        · rcases List.mem_singleton.mp h with h'
          rw [h']
          dsimp only
          have e2 := hlt2 2 2
          omega
      · simp only [List.singleton_append, List.flatMap_cons, List.flatMap_nil, List.append_nil]
        exact two_block_nodup copy hcnd 2
    · by_cases hn2 : 2 ≤ wines.length
      · rw [if_pos (show min 2 wines.length = 2 by omega)]
        rw [if_neg (show ¬ (((copy.drop 2).take 2).length = 2 ∧ wines.length ≥ 4) from
          fun hc => hn4 hc.2)]
        rw [hfb _ (by simp)]
        refine ⟨Or.inl rfl, ⟨fun h => by simp at h, fun hc => absurd hc.2 (by omega)⟩, ?_, ?_⟩
        · intro j hj
          rcases List.mem_singleton.mp hj with h
          rw [h]
          dsimp only
          have e1 := hlt 2
          omega
        · simp only [List.flatMap_cons, List.flatMap_nil, List.append_nil]
          exact hcnd.sublist (List.Sublist.map (fun w => w.id) (List.take_sublist 2 copy))
      · rw [if_neg (show ¬ min 2 wines.length = 2 by omega)]
        rw [if_neg (show ¬ (((copy.drop 2).take 2).length = 2 ∧ wines.length ≥ 4) from
          fun hc => hn4 hc.2)]
        rw [if_pos (show ([] : List Journey) = [] ∧ wines ≠ [] from ⟨rfl, hne⟩)]
        rw [if_neg (show ¬ wines.length ≥ 2 by omega)]
        refine ⟨Or.inl rfl, ⟨fun h => by simp at h, fun hc => absurd hc.2 (by omega)⟩, ?_, ?_⟩
        · intro j hj
          rcases List.mem_singleton.mp hj with h
          rw [h]
          dsimp only
          omega
        · simp only [List.flatMap_cons, List.flatMap_nil, List.append_nil]
          exact hnodup
  · by_cases hb3 : bottles_count = 3
    · subst hb3
      rw [if_neg (show ¬ ((3 : Nat) = 2) by omega)]
      rw [if_pos (show (3 : Nat) = 3 from rfl)]
      rw [h1 3, hlt 3]
      by_cases hn3 : 3 ≤ wines.length
      · rw [if_pos (show min 3 wines.length = 3 by omega)]
        by_cases hn6 : wines.length ≥ 6
        · rw [if_pos hn6]
          rw [h2 3 3]
          rw [if_pos (show ((copy.drop 3).take 3).length = 3 from by rw [hlt2 3 3]; omega)]
          rw [hfb _ (by simp)]
          refine ⟨Or.inr rfl, ⟨fun _ => ⟨by omega, by omega⟩, fun _ => rfl⟩, ?_, ?_⟩
          · intro j hj
            rcases List.mem_cons.mp hj with h | h
            · rw [h]
              dsimp only
              have e1 := hlt 3
              omega
            · rcases List.mem_singleton.mp h with h'
              rw [h']
              dsimp only
              have e2 := hlt2 3 3
              omega
          · simp only [List.singleton_append, List.flatMap_cons, List.flatMap_nil, List.append_nil]
            exact two_block_nodup copy hcnd 3
        · rw [if_neg hn6]
          rw [hfb _ (by simp)]
          refine ⟨Or.inl rfl, ⟨fun h => by simp at h, fun hc => absurd hc.2 (by omega)⟩, ?_, ?_⟩
          · intro j hj
            rcases List.mem_singleton.mp hj with h
            rw [h]
            dsimp only
            have e1 := hlt 3
            omega
          · simp only [List.flatMap_cons, List.flatMap_nil, List.append_nil]
            exact hcnd.sublist (List.Sublist.map (fun w => w.id) (List.take_sublist 3 copy))
      · rw [if_neg (show ¬ min 3 wines.length = 3 by omega)]
        rw [if_pos (show ([] : List Journey) = [] ∧ wines ≠ [] from ⟨rfl, hne⟩)]
        rw [if_neg (show ¬ wines.length ≥ 3 by omega)]
        refine ⟨Or.inl rfl, ⟨fun h => by simp at h, fun hc => absurd hc.2 (by omega)⟩, ?_, ?_⟩
        · intro j hj
          rcases List.mem_singleton.mp hj with h
          rw [h]
          dsimp only
          omega
        · simp only [List.flatMap_cons, List.flatMap_nil, List.append_nil]
          exact hnodup
    · by_cases hb4 : bottles_count ≥ 4
      · rw [if_neg (show ¬ (bottles_count = 2) from hb2)]
        rw [if_neg (show ¬ (bottles_count = 3) from hb3)]
        rw [if_pos hb4]
        rw [h1 bottles_count, hlt bottles_count]
        by_cases hn2 : 2 ≤ wines.length
        · rw [if_pos (show min bottles_count wines.length ≥ 2 by omega)]
          by_cases hn2b : wines.length ≥ bottles_count * 2
          · rw [if_pos hn2b]
            rw [h2 bottles_count bottles_count]
            rw [if_pos (show ((copy.drop bottles_count).take bottles_count).length ≥ 2 from by
              rw [hlt2 bottles_count bottles_count]; omega)]
            rw [hfb _ (by simp)]
            refine ⟨Or.inr rfl, ⟨fun _ => ⟨by omega, by omega⟩, fun _ => rfl⟩, ?_, ?_⟩
            · intro j hj
              rcases List.mem_cons.mp hj with h | h
              · rw [h]
                dsimp only
                have e1 := hlt bottles_count
                omega
              · rcases List.mem_singleton.mp h with h'
                rw [h']
                dsimp only
                have e2 := hlt2 bottles_count bottles_count
                omega
            · simp only [List.singleton_append, List.flatMap_cons, List.flatMap_nil, List.append_nil]
              exact two_block_nodup copy hcnd bottles_count
          · rw [if_neg hn2b]
            rw [hfb _ (by simp)]
            refine ⟨Or.inl rfl, ⟨fun h => by simp at h, fun hc => absurd hc.2 (by omega)⟩, ?_, ?_⟩
            · intro j hj
              rcases List.mem_singleton.mp hj with h
              rw [h]
              dsimp only
              have e1 := hlt bottles_count
              omega
            · simp only [List.flatMap_cons, List.flatMap_nil, List.append_nil]
              exact hcnd.sublist (List.Sublist.map (fun w => w.id)
                (List.take_sublist bottles_count copy))
        · rw [if_neg (show ¬ min bottles_count wines.length ≥ 2 by omega)]
          rw [if_pos (show ([] : List Journey) = [] ∧ wines ≠ [] from ⟨rfl, hne⟩)]
          rw [if_neg (show ¬ wines.length ≥ bottles_count by omega)]
          refine ⟨Or.inl rfl, ⟨fun h => by simp at h, fun hc => absurd hc.2 (by omega)⟩, ?_, ?_⟩
          · intro j hj
            rcases List.mem_singleton.mp hj with h
            rw [h]
            dsimp only
            omega
          · simp only [List.flatMap_cons, List.flatMap_nil, List.append_nil]
            exact hnodup
      · rw [if_neg (show ¬ (bottles_count = 2) from hb2)]
        rw [if_neg (show ¬ (bottles_count = 3) from hb3)]
        rw [if_neg hb4]
        rw [if_pos (show ([] : List Journey) = [] ∧ wines ≠ [] from ⟨rfl, hne⟩)]
        by_cases hgeb : wines.length ≥ bottles_count
        · rw [if_pos hgeb]
          refine ⟨Or.inl rfl, ⟨fun h => by simp at h, fun hc => absurd hc.1 (by omega)⟩, ?_, ?_⟩
          · intro j hj
            rcases List.mem_singleton.mp hj with h
            rw [h]
            dsimp only
            have e1 := hwt bottles_count
            omega
          · simp only [List.flatMap_cons, List.flatMap_nil, List.append_nil]
            exact hnodup.sublist (List.Sublist.map (fun w => w.id)
              (List.take_sublist bottles_count wines))
        · rw [if_neg hgeb]
          refine ⟨Or.inl rfl, ⟨fun h => by simp at h, fun hc => absurd hc.1 (by omega)⟩, ?_, ?_⟩
          · intro j hj
            rcases List.mem_singleton.mp hj with h
            rw [h]
            dsimp only
            omega
          · simp only [List.flatMap_cons, List.flatMap_nil, List.append_nil]
            exact hnodup

/-- Witness for C10: the spec's end-to-end example — four distinct items,
bottle count two, a permuting shuffle — yields exactly two journeys of two
items each. -/
theorem c10_journey_construction_witness :
    [exA, exB, exC, exD] ≠ [] ∧
    (create_wine_journeys exPRNG 0 [exA, exB, exC, exD] 2).length = 2 :=
  ⟨by decide,
   (c10_journey_construction exPRNG 0 [exA, exB, exC, exD] 2
      (fun s l => List.reverse_perm l) (by decide) (by decide) (by decide)).2.1.mpr
      ⟨by decide, by decide⟩⟩

/-- Strategy 1 on a successful exact substring match: score 100 at the match
position. -/
theorem strategy1Score_some {rl nm : Str} {i : Nat} (h : findSub rl nm = some i) :
    strategy1Score rl nm = ((i : Int), 100) := by
  rw [strategy1Score, h]

/-- Strategy 2 leaves a score of at least 50 untouched. -/
theorem strategy2Score_of_ge {rl nm : Str} {s : Int × Rat} (h : ¬ s.2 < 50) :
    strategy2Score rl nm s = s := by
  rw [strategy2Score, if_neg h]

/-- Strategy 3 leaves a score of at least 20 untouched. -/
theorem strategy3Score_of_ge {rl nm : Str} {s : Int × Rat} (h : ¬ s.2 < 20) :
    strategy3Score rl nm s = s := by
  rw [strategy3Score, if_neg h]

/-- An exact case-insensitive full-name match makes the final score exactly
100 at a non-negative position. -/
theorem scoreWine_exact {text_lower : Str} {w : Wine} {i : Nat}
    (h : findSub text_lower (lowerStr (stripStr w.name)) = some i) :
    scoreWine text_lower w = ((i : Int), 100) := by
  rw [scoreWine]
  rw [strategy1Score_some h]
  rw [strategy2Score_of_ge (by norm_num)]
  rw [strategy3Score_of_ge (by norm_num)]

/-- The proportional word score of strategy 2 never exceeds 50. -/
theorem strategy2Score_le_50 (rl nm : Str) {s : Int × Rat} (h : s.2 ≤ 0) :
    (strategy2Score rl nm s).2 ≤ 50 := by
  rw [strategy2Score]
  split
  · dsimp only
    rcases hmin : (((splitWs nm).filter
        (fun p => (stripStr p).length > 3 ∧ ¬ stopWords.contains (lowerStr p))).map stripStr).flatMap
        (fun part => finditerWb rl (lowerStr part)) |>.min? with _ | m
    · exact le_trans h (by norm_num)
    · dsimp only
      split
      · rename_i hlen
        dsimp only
        set parts := ((splitWs nm).filter
          (fun p => (stripStr p).length > 3 ∧ ¬ stopWords.contains (lowerStr p))).map stripStr
          with hparts
        set matched := (((parts.filter (fun p => (parts.flatMap
            (fun part => finditerWb rl (lowerStr part))).any
            (fun pos => containsSub (sliceStr rl (pos - 10) (pos + p.length + 10))
              (lowerStr p)))).map lowerStr).dedup).length with hmatched
        have hle : matched ≤ parts.length := by
          rw [hmatched]
          calc (((parts.filter (fun p => (parts.flatMap
                (fun part => finditerWb rl (lowerStr part))).any
                (fun pos => containsSub (sliceStr rl (pos - 10) (pos + p.length + 10))
                  (lowerStr p)))).map lowerStr).dedup).length
              ≤ ((parts.filter (fun p => (parts.flatMap
                (fun part => finditerWb rl (lowerStr part))).any
                (fun pos => containsSub (sliceStr rl (pos - 10) (pos + p.length + 10))
                  (lowerStr p)))).map lowerStr).length :=
                (List.dedup_sublist _).length_le
            _ ≤ parts.length := by
                rw [List.length_map]
                exact List.length_filter_le _ _
        have hq : (matched : Rat) / (parts.length : Rat) ≤ 1 := by
          rw [div_le_one (by exact_mod_cast hlen)]
          exact_mod_cast hle
        calc (matched : Rat) / (parts.length : Rat) * 50
            ≤ 1 * 50 := mul_le_mul_of_nonneg_right hq (by norm_num)
          _ = 50 := by norm_num
      · norm_num
  · exact le_trans h (by norm_num)

/-- Strategy 3 never raises a score that is at most 50 above 50. -/
theorem strategy3Score_le_50 (rl nm : Str) {s : Int × Rat} (h : s.2 ≤ 50) :
    (strategy3Score rl nm s).2 ≤ 50 := by
  rw [strategy3Score]
  split
  · split
    · split
      · dsimp only
        split
        · norm_num
        · exact h
      · exact h
    · exact h
  · exact h

/-- Without an exact full-name match the final score stays at or below 50. -/
theorem scoreWine_no_exact {text_lower : Str} {w : Wine}
    (h : findSub text_lower (lowerStr (stripStr w.name)) = none) :
    (scoreWine text_lower w).2 ≤ 50 := by
  rw [scoreWine]
  refine strategy3Score_le_50 _ _ (strategy2Score_le_50 _ _ ?_)
  rw [strategy1Score, h]

/-- Every accepted mention scores strictly above 80 at a non-negative
position, and wraps a catalog wine. -/
theorem wineMatches_spec (rl : Str) (catalog : List Wine) :
    ∀ e ∈ wineMatches rl catalog,
      80 < e.score ∧ 0 ≤ e.position ∧ e.wine ∈ catalog := by
  intro e he
  rcases List.mem_filterMap.mp he with ⟨w, hw, hf⟩
  by_cases hname : stripStr w.name = []
  · rw [if_pos hname] at hf
    cases hf
  · rw [if_neg hname] at hf
    dsimp only at hf
    by_cases hcond : (scoreWine rl w).1 ≥ 0 ∧ (scoreWine rl w).2 > 80
    · rw [if_pos hcond] at hf
      injection hf with hfe
      subst hfe
      exact ⟨hcond.2, hcond.1, hw⟩
    · rw [if_neg hcond] at hf
      cases hf

/-- The extractor's sort key order is total. -/
theorem matchLe_total (a b : MatchEntry) : matchLe a b ∨ matchLe b a := by
  rcases lt_trichotomy a.position b.position with h | h | h
  · exact Or.inl (Or.inl h)
  · rcases le_total b.score a.score with hs | hs
    · exact Or.inl (Or.inr ⟨h, hs⟩)
    · exact Or.inr (Or.inr ⟨h.symm, hs⟩)
  · exact Or.inr (Or.inl h)

/-- The extractor's sort key order is transitive. -/
theorem matchLe_trans (a b c : MatchEntry) (hab : matchLe a b) (hbc : matchLe b c) :
    matchLe a c := by
  rcases hab with h1 | ⟨h1, h1s⟩
  · rcases hbc with h2 | ⟨h2, _⟩
    · exact Or.inl (lt_trans h1 h2)
    · exact Or.inl (h2 ▸ h1)
  · rcases hbc with h2 | ⟨h2, h2s⟩
    · exact Or.inl (h1 ▸ h2)
    · exact Or.inr ⟨h1.trans h2, le_trans h2s h1s⟩

/-- The accepted mentions are sorted by position, ties by descending score. -/
theorem sortedMatches_pairwise (rl : Str) (catalog : List Wine) :
    (sortedMatches rl catalog).Pairwise matchLe :=
  @List.sorted_insertionSort MatchEntry matchLe _
    ⟨matchLe_total⟩ ⟨matchLe_trans⟩ (wineMatches rl catalog)

/-- The accepted-mention sort is a permutation. -/
theorem sortedMatches_perm (rl : Str) (catalog : List Wine) :
    (sortedMatches rl catalog).Perm (wineMatches rl catalog) :=
  List.perm_insertionSort _ _

/-- The extractor's dedup loop returns a sublist of its input. -/
theorem dedupWinesGo_sublist : ∀ (l : List Wine) (seen : List Nat),
    List.Sublist (dedupWinesGo l seen) l := by
  intro l
  induction l with
  | nil => intro seen; simp [dedupWinesGo]
  | cons w t ih =>
    intro seen
    rw [dedupWinesGo]
    split
    · exact List.Sublist.cons₂ w (ih (w.id :: seen))
    · exact List.Sublist.cons w (ih seen)

/-- The extractor's dedup loop yields pairwise-distinct ids, none previously
seen. -/
theorem dedupWinesGo_id_spec : ∀ (l : List Wine) (seen : List Nat),
    ((dedupWinesGo l seen).map (fun w => w.id)).Nodup ∧
    ∀ w ∈ dedupWinesGo l seen, w.id ∉ seen := by
  intro l
  induction l with
  | nil => intro seen; exact ⟨List.nodup_nil, by intro w h; cases h⟩
  | cons w t ih =>
    intro seen
    rw [dedupWinesGo]
    split
    · rename_i hcond
      obtain ⟨hnd, hnotseen⟩ := ih (w.id :: seen)
      constructor
      · rw [List.map_cons, List.nodup_cons]
        refine ⟨?_, hnd⟩
        intro hbad
        rcases List.mem_map.mp hbad with ⟨r, hr, hid⟩
        exact (hnotseen r hr) (by rw [hid]; exact List.mem_cons_self _ _)
      · intro r hr
        rcases List.mem_cons.mp hr with h' | h'
        · subst h'
          intro hbad
          exact hcond.2 (List.elem_eq_true_of_mem hbad)
        · intro hbad
          exact (hnotseen r h') (List.mem_cons_of_mem _ hbad)
    · obtain ⟨h1, h2⟩ := ih seen
      exact ⟨h1, fun r hr => h2 r hr⟩

/-- When the text contains no catalog name, no mention is accepted. -/
theorem wineMatches_empty (rl : Str) (catalog : List Wine)
    (h : ∀ w ∈ catalog, stripStr w.name ≠ [] →
      findSub rl (lowerStr (stripStr w.name)) = none) :
    wineMatches rl catalog = [] := by
  rw [wineMatches, List.filterMap_eq_nil_iff]
  intro w hw
  by_cases hname : stripStr w.name = []
  · rw [if_pos hname]
  · rw [if_neg hname]
    dsimp only
    rw [if_neg ?_]
    intro hc
    have hle : (scoreWine rl w).2 ≤ 50 := scoreWine_no_exact (h w hw hname)
    have : (80 : Rat) < 50 := lt_of_lt_of_le hc.2 hle
    norm_num at this

/-- C8: the Mention Extractor scores an exact case-insensitive full-name match
100; it accepts only matches scoring strictly above 80 (all of them catalog
wines at non-negative positions); accepted matches are ordered by first
position in the text with ties broken by descending score; the returned list
is a duplicate-free-by-id subsequence of that ordering (first occurrences
kept); and a text containing no catalog name yields the empty list. -/
theorem c8_mention_extractor (text : Str) (catalog : List Wine) :
    (∀ w ∈ catalog, ∀ i : Nat,
      findSub (lowerStr text) (lowerStr (stripStr w.name)) = some i →
      scoreWine (lowerStr text) w = ((i : Int), 100)) ∧
    (∀ e ∈ wineMatches (lowerStr text) catalog,
      80 < e.score ∧ 0 ≤ e.position ∧ e.wine ∈ catalog) ∧
    (sortedMatches (lowerStr text) catalog).Pairwise matchLe ∧
    List.Sublist (extract_recommended_wines text catalog)
      ((sortedMatches (lowerStr text) catalog).map (fun e => e.wine)) ∧
    ((extract_recommended_wines text catalog).map (fun w => w.id)).Nodup ∧
    ((∀ w ∈ catalog, stripStr w.name ≠ [] →
        findSub (lowerStr text) (lowerStr (stripStr w.name)) = none) →
      extract_recommended_wines text catalog = []) := by
  refine ⟨?_, wineMatches_spec _ _, sortedMatches_pairwise _ _, ?_, ?_, ?_⟩
  · intro w _ i hfind
    exact scoreWine_exact hfind
  · rw [extract_recommended_wines]
    split
    · exact List.nil_sublist _
    · exact dedupWinesGo_sublist _ []
  · rw [extract_recommended_wines]
    split
    · exact List.nodup_nil
    · exact (dedupWinesGo_id_spec _ []).1
  · intro h
    rw [extract_recommended_wines]
    split
    · rfl
    · rw [sortedMatches, wineMatches_empty (lowerStr text) catalog h]
      rfl

/-- Witness for C8: the exact mention of wine A's name in a concrete response
scores 100 at position 16, and a response containing no catalog name extracts
nothing. -/
theorem c8_mention_extractor_witness :
    findSub (lowerStr (strL "Vi consiglio il Barolo Riserva")) (lowerStr (stripStr exA.name))
      = some 16 ∧
    scoreWine (lowerStr (strL "Vi consiglio il Barolo Riserva")) exA = ((16 : Int), 100) ∧
    extract_recommended_wines (strL "Niente di interessante qui") [exA, exB, exC] = [] :=
  ⟨by decide,
   (c8_mention_extractor (strL "Vi consiglio il Barolo Riserva") [exA, exB, exC]).1 exA
     (by decide) 16 (by decide),
   (c8_mention_extractor (strL "Niente di interessante qui") [exA, exB, exC]).2.2.2.2.2
     (by decide)⟩

end LiberAI
